import Mathlib

/-!
Verification of the ical-rs calendaring library against its specification.

The development shallowly embeds the Rust sources: text is modelled as
`List Char` (matching Rust `&str`, whose `chars()` iterator, `find` and
`split_at` used by this code base all operate on character boundaries),
fallible functions return `Except`, and functions that can `panic!` or
`assert!` return an explicit `POut` outcome.  External crates (`chrono-tz`
offset data, the `rrule` recurrence iterator) enter as explicit function
parameters, never as stubbed constants.

Embedded source files (paths relative to the repository root):
  - `src/generator/ical.rs`     : `split_line`, `protect_param`, `get_params`,
                                  `impl Emitter for Property`, component emitters
  - `src/line.rs`               : `BytesLines`, `LineReader`
  - `src/property.rs`           : `PropertyParser::parse`
  - `src/parser/mod.rs`         : `ComponentMut::parse`, `ComponentParser`
  - `src/parser/ical/component/alarm.rs`      : `IcalAlarm`
  - `src/parser/ical/component/calendar_object.rs` : `CalendarInnerData::from_events`
  - `src/parser/ical/component/event/mod.rs`  : `IcalEvent::expand_recurrence`
  - `src/parser/ical/component/event/builder.rs` : `IcalEventBuilder::build`
  - `src/types/datetime.rs`     : `CalDateTime::parse`, `CalDateTime::parse_prop`
  - `src/types/date.rs`         : `CalDate::parse`, `CalDate::parse_prop`
  - `src/types/duration.rs`     : `parse_duration`
-/

namespace IcalRs

/-- Text is modelled as a list of Unicode scalar values, exactly the view that
Rust `str::chars()` provides. -/
abbrev Str : Type := List Char

/-- Convenience injection from Lean string literals into the model. -/
def str (s : String) : Str := s.data

/-- Delimiter `';'` between parameters (`PARAM_DELIMITER` in the crate root;
the constant declarations live in the crate root `lib.rs`, which is not part
of the source snapshot — the values are fixed by the grammar in the spec and
by their uses in `src/property.rs` and `src/generator/ical.rs`). -/
def PARAM_DELIMITER : Char := ';'

/-- Delimiter `':'` before the property value (`VALUE_DELIMITER`). -/
def VALUE_DELIMITER : Char := ':'

/-- Delimiter `'='` between a parameter name and its value
(`PARAM_NAME_DELIMITER`). -/
def PARAM_NAME_DELIMITER : Char := '='

/-- Delimiter `','` between the values of one parameter
(`PARAM_VALUE_DELIMITER`). -/
def PARAM_VALUE_DELIMITER : Char := ','

/-- Quote character `'"'` for quoted parameter values (`PARAM_QUOTE`). -/
def PARAM_QUOTE : Char := '"'

/-- A content line, `struct Property` in `src/property.rs` (the same record is
called `ContentLine` in the newer parser modules): a name, an ordered list of
`(parameter name, value list)` pairs, and an optional raw value. -/
structure ContentLine where
  name : Str
  params : List (Str × List Str)
  value : Option Str
deriving DecidableEq, Repr

/-- Model of Rust `str::to_uppercase` as used for case-insensitive fields.
The library only ever uppercases ASCII grammar tokens (parameter keys and
component names); on ASCII this model is exact. -/
def rustUppercase (s : Str) : Str := s.map Char.toUpper

/-- Model of `Property::get_param` (`src/property.rs`): first parameter with
the given name, then the first of its values. -/
def ContentLine.get_param (p : ContentLine) (name : Str) : Option Str :=
  (p.params.find? (fun kv => kv.1 = name)).bind (fun kv => kv.2.head?)

/-- Model of `Property::get_tzid`. -/
def ContentLine.get_tzid (p : ContentLine) : Option Str :=
  p.get_param (str "TZID")

/-- Model of `Property::get_value_type`. -/
def ContentLine.get_value_type (p : ContentLine) : Option Str :=
  p.get_param (str "VALUE")

/-! ## Generator (`src/generator/ical.rs`) -/

/-- Fuel-driven form of the tail-chunk loop of `split_line`; the fuel only
bounds the recursion depth (one unit per non-empty chunk of 74 characters)
and is set to the input length, which the loop never exhausts. -/
def chunksAfterFirstGo : Nat → Str → List Str
  | _, [] => []
  | 0, _ :: _ => []
  | fuel + 1, c :: cs =>
    ((c :: cs).take 74) :: chunksAfterFirstGo fuel ((c :: cs).drop 74)

/-- The tail chunks taken by `split_line` (`src/generator/ical.rs` lines
23-36): after the first chunk of 75 characters, each further call takes 74
characters, and the `take_while(|s| !s.is_empty())` stops at the first empty
chunk. -/
def chunksAfterFirst (l : Str) : List Str := chunksAfterFirstGo l.length l

theorem chunksAfterFirstGo_congr :
    ∀ (f1 f2 : Nat) (l : Str), l.length ≤ f1 → l.length ≤ f2 →
      chunksAfterFirstGo f1 l = chunksAfterFirstGo f2 l := by
  intro f1
  induction f1 with
  | zero =>
    intro f2 l h1 h2
    have : l = [] := List.eq_nil_of_length_eq_zero (Nat.le_zero.mp h1)
    subst this
    cases f2 <;> rfl
  | succ n ih =>
    intro f2 l h1 h2
    cases l with
    | nil => cases f2 <;> rfl
    | cons c cs =>
      cases f2 with
      | zero => simp at h2
      | succ m =>
        simp only [chunksAfterFirstGo, List.cons.injEq, true_and]
        apply ih
        · simp only [List.length_drop, List.length_cons] at *
          omega
        · simp only [List.length_drop, List.length_cons] at *
          omega

/-- The loop equation of the tail-chunk loop, independent of fuel. -/
theorem chunksAfterFirst_cons (c : Char) (cs : Str) :
    chunksAfterFirst (c :: cs) =
      ((c :: cs).take 74) :: chunksAfterFirst ((c :: cs).drop 74) := by
  show chunksAfterFirstGo (cs.length + 1) (c :: cs) = _
  simp only [chunksAfterFirstGo]
  unfold chunksAfterFirst
  rw [chunksAfterFirstGo_congr cs.length ((c :: cs).drop 74).length]
  · simp [List.length_drop]
  · exact Nat.le_refl _

/-- The full chunk sequence of `split_line`: 75 characters first, then 74 per
continuation chunk. -/
def splitLineChunks (l : Str) : List Str :=
  match l with
  | [] => []
  | c :: cs => ((c :: cs).take 75) :: chunksAfterFirst ((c :: cs).drop 75)

/-- The separator `"\r\n "` that `split_line` inserts between chunks. -/
def crlfSp : Str := ['\r', '\n', ' ']

/-- The line break `"\r\n"`. -/
def crlf : Str := ['\r', '\n']

/-- Model of `split_line` (`src/generator/ical.rs` lines 19-38): chunk the
character sequence (75 then 74 at a time) and join the chunks with
`"\r\n "`. -/
def splitLine (l : Str) : Str :=
  List.intercalate crlfSp (splitLineChunks l)

/-- One step of the `protect_param` loop (`src/generator/ical.rs` lines
61-80): `inQuotes` is the precomputed flag, `len` the parameter length,
`pos` the current index and `prev` the previously seen character. -/
def protectParamGo (inQuotes : Bool) (len : Nat) :
    Nat → Option Char → Str → Str
  | _, _, [] => []
  | pos, prev, c :: rest =>
    (if c = '\n' then ['\\', 'n']
     else if c = '"' ∧ (inQuotes = false ∨ (pos > 0 ∧ pos < len - 1)) then
       ['\\', '"']
     else if (c = ';' ∨ c = ':' ∨ c = ',' ∨ c = '\\') ∧ inQuotes = false ∧
         prev ≠ some '\\' then
       ['\\', c]
     else [c]) ++ protectParamGo inQuotes len (pos + 1) (some c) rest

/-- Model of `protect_param` (`src/generator/ical.rs` lines 56-82): escape a
parameter value, passing through values already wrapped in quotes. -/
def protectParam (param : Str) : Str :=
  let inQuotes : Bool :=
    decide (param.length > 1 ∧ param.head? = some '"' ∧
      param.getLast? = some '"')
  protectParamGo inQuotes param.length 0 none param

/-- Model of `get_params` (`src/generator/ical.rs` lines 140-151): each
parameter renders as `name=value,value,...` with escaped values, parameters
joined by `';'`. -/
def getParams (params : List (Str × List Str)) : Str :=
  List.intercalate [PARAM_DELIMITER]
    (params.map (fun kv =>
      kv.1 ++ [PARAM_NAME_DELIMITER] ++
        List.intercalate [PARAM_VALUE_DELIMITER] (kv.2.map protectParam)))

/-- Model of `impl Emitter for Property::generate` (`src/generator/ical.rs`
lines 153-169): `NAME[;PARAMS]:VALUE` followed by CRLF, then folded by
`split_line`. -/
def ContentLine.generate (p : ContentLine) : Str :=
  let ps := getParams p.params
  splitLine
    (p.name ++ (if ps = [] then [] else PARAM_DELIMITER :: ps) ++
      [VALUE_DELIMITER] ++ p.value.getD [] ++ crlf)

/-! ## Line reading (`src/line.rs`) -/

theorem dropWhile_length_le {α : Type} (p : α → Bool) (l : List α) :
    (l.dropWhile p).length ≤ l.length := by
  induction l with
  | nil => simp [List.dropWhile]
  | cons a t ih =>
    by_cases h : p a
    · simpa [List.dropWhile, h] using Nat.le_succ_of_le ih
    · simp [List.dropWhile, h]

/-- The scanning loop of `BytesLines::next` (`src/line.rs` lines 90-111):
`acc` is the content scanned since the last line break.  At each `'\n'` the
accumulated content is emitted, with one `'\r'` immediately before the
`'\n'` stripped (the source checks `pos > 0 && bytes[pos - 1] == b'\r'`,
which is exactly "the accumulator is non-empty and ends in `'\r'`");
trailing content without a line break is a line of its own, and exhausted
input emits nothing more. -/
def bytesLinesGo (acc : Str) : Str → List Str
  | [] => if acc = [] then [] else [acc]
  | c :: rest =>
    if c = '\n' then
      (if acc.getLast? = some '\r' then acc.dropLast else acc) ::
        bytesLinesGo [] rest
    else
      bytesLinesGo (acc ++ [c]) rest

/-- Model of `BytesLines::next` iterated to the end (`src/line.rs` lines
87-113).  The model works on characters: the byte values `0x0A`/`0x0D`
occur in UTF-8 text exactly as the characters `'\n'`/`'\r'`. -/
def bytesLines (l : Str) : List Str := bytesLinesGo [] l

/-- The continuation test of `LineReader::next` (`src/line.rs` lines
152-154): a physical line continues the logical line when it starts with a
space or horizontal tab, or is empty. -/
def isCont (l : Str) : Bool :=
  l.head? = some ' ' ∨ l.head? = some '\t' ∨ l = []

/-- Fuel-driven form of the `LineReader::next` loop; the fuel (one unit per
consumed physical line, set to the number of physical lines) is never
exhausted. -/
def lineReaderFuel : Nat → Nat → List Str → List (Str × Nat)
  | _, _, [] => []
  | 0, _, _ :: _ => []
  | fuel + 1, n, l :: ls' =>
    if l = [] then lineReaderFuel fuel (n + 1) ls'
    else
      let cont := ls'.takeWhile isCont
      let rest := ls'.dropWhile isCont
      (l ++ (cont.map (List.drop 1)).flatten, n + 1) ::
        lineReaderFuel fuel (n + 1 + cont.length) rest

/-- Model of `LineReader::next` iterated to the end (`src/line.rs` lines
142-181): skip empty lines, take the next non-empty physical line as the
base, append every following continuation line with its first character
stripped (empty continuation lines contribute nothing), and record the line
number at which the base line was read.  UTF-8 re-validation is a no-op at
the character level. -/
def lineReaderGo (n : Nat) (ls : List Str) : List (Str × Nat) :=
  lineReaderFuel ls.length n ls

theorem lineReaderFuel_congr :
    ∀ (f1 f2 n : Nat) (ls : List Str), ls.length ≤ f1 → ls.length ≤ f2 →
      lineReaderFuel f1 n ls = lineReaderFuel f2 n ls := by
  intro f1
  induction f1 with
  | zero =>
    intro f2 n ls h1 h2
    have : ls = [] := List.eq_nil_of_length_eq_zero (Nat.le_zero.mp h1)
    subst this
    cases f2 <;> rfl
  | succ m ih =>
    intro f2 n ls h1 h2
    cases ls with
    | nil => cases f2 <;> rfl
    | cons l ls' =>
      cases f2 with
      | zero => simp at h2
      | succ m2 =>
        simp only [lineReaderFuel]
        by_cases hl : l = []
        · rw [if_pos hl, if_pos hl]
          apply ih
          · simp only [List.length_cons] at h1; omega
          · simp only [List.length_cons] at h2; omega
        · rw [if_neg hl, if_neg hl]
          have hd : (ls'.dropWhile isCont).length ≤ ls'.length :=
            dropWhile_length_le _ ls'
          simp only [List.length_cons] at h1 h2
          rw [ih m2 (n + 1 + (ls'.takeWhile isCont).length)
            (ls'.dropWhile isCont) (by omega) (by omega)]

/-- The loop equation of the `LineReader` loop: skipping an empty line. -/
theorem lineReaderGo_cons_nil (n : Nat) (ls' : List Str) :
    lineReaderGo n ([] :: ls') = lineReaderGo (n + 1) ls' := by
  show lineReaderFuel (ls'.length + 1) n ([] :: ls') = _
  simp only [lineReaderFuel, if_pos rfl]
  apply lineReaderFuel_congr <;> omega

/-- The loop equation of the `LineReader` loop: assembling one logical line
from a non-empty base line and its continuation lines. -/
theorem lineReaderGo_cons (n : Nat) (l : Str) (ls' : List Str)
    (hl : l ≠ []) :
    lineReaderGo n (l :: ls') =
      (l ++ ((ls'.takeWhile isCont).map (List.drop 1)).flatten, n + 1) ::
        lineReaderGo (n + 1 + (ls'.takeWhile isCont).length)
          (ls'.dropWhile isCont) := by
  show lineReaderFuel (ls'.length + 1) n (l :: ls') = _
  simp only [lineReaderFuel, if_neg hl]
  have hd : (ls'.dropWhile isCont).length ≤ ls'.length :=
    dropWhile_length_le _ ls'
  rw [lineReaderFuel_congr ls'.length (ls'.dropWhile isCont).length _ _
    (by omega) (by omega)]
  rfl

/-- The composed unfolding stage: physical text to numbered logical lines. -/
def lineReader (text : Str) : List (Str × Nat) :=
  lineReaderGo 0 (bytesLines text)

/-! ## Content-line tokenizer (`src/property.rs`) -/

/-- Model of `enum PropertyError` (`src/property.rs` lines 51-65); every
variant carries the number of the offending line. -/
inductive PropertyError where
  | missingName (line : Nat)
  | missingClosingQuote (line : Nat)
  | missingDelimiter (line : Nat) (delim : Char)
  | missingContentAfter (line : Nat) (delim : Char)
  | missingParamKey (line : Nat)
  | missingValue (line : Nat)
deriving DecidableEq, Repr

/-- One parameter value (`src/property.rs` lines 162-192): either a
double-quoted run (content up to the next quote; missing close quote is an
error) or a bare run up to the next `';'`, `':'` or `','` (no such delimiter
is an error).  Returns the value and the unconsumed remainder. -/
def parseOneValue (num : Nat) (s : Str) :
    Except PropertyError (Str × Str) :=
  if s.head? = some PARAM_QUOTE then
    let t := s.drop 1
    match t.findIdx? (fun c => c = PARAM_QUOTE) with
    | some j => .ok (t.take j, t.drop (j + 1))
    | none => .error (.missingClosingQuote num)
  else
    match s.findIdx? (fun c =>
        c = PARAM_DELIMITER ∨ c = VALUE_DELIMITER ∨
          c = PARAM_VALUE_DELIMITER) with
    | some i => .ok (s.take i, s.drop i)
    | none => .error (.missingContentAfter num PARAM_NAME_DELIMITER)

theorem parseOneValue_rest_lt (num : Nat) (s v rest : Str)
    (hq : s.head? = some PARAM_QUOTE)
    (h : parseOneValue num s = .ok (v, rest)) : rest.length < s.length := by
  unfold parseOneValue at h
  rw [if_pos hq] at h
  cases s with
  | nil => simp at hq
  | cons a t =>
    simp only [List.drop_succ_cons, List.drop_zero] at h
    cases hj : t.findIdx? (fun c => c = PARAM_QUOTE) with
    | none => rw [hj] at h; exact absurd h (by simp)
    | some j =>
      rw [hj] at h
      simp only [Except.ok.injEq, Prod.mk.injEq] at h
      obtain ⟨-, h2⟩ := h
      subst h2
      simp only [List.length_drop, List.length_cons]
      omega

theorem parseOneValue_rest_le (num : Nat) (s v rest : Str)
    (h : parseOneValue num s = .ok (v, rest)) : rest.length ≤ s.length := by
  by_cases hq : s.head? = some PARAM_QUOTE
  · exact Nat.le_of_lt (parseOneValue_rest_lt num s v rest hq h)
  · unfold parseOneValue at h
    rw [if_neg hq] at h
    cases hi : s.findIdx? (fun c =>
        c = PARAM_DELIMITER ∨ c = VALUE_DELIMITER ∨
          c = PARAM_VALUE_DELIMITER) with
    | none => rw [hi] at h; exact absurd h (by simp)
    | some i =>
      rw [hi] at h
      simp only [Except.ok.injEq, Prod.mk.injEq] at h
      obtain ⟨-, h2⟩ := h
      subst h2
      simp [List.length_drop]

/-- A list whose head satisfies the dropped predicate loses length under
`dropWhile`. -/
theorem length_dropWhile_lt_of_head {p : Char → Bool} {l : Str} {c : Char}
    (hc : l.head? = some c) (hp : p c = true) :
    (l.dropWhile p).length < l.length := by
  cases l with
  | nil => simp at hc
  | cons a t =>
    simp only [List.head?_cons, Option.some.injEq] at hc
    subst hc
    rw [List.dropWhile_cons_of_pos hp]
    have := dropWhile_length_le p t
    simp only [List.length_cons]
    omega

/-- Fuel-driven form of the value loop of `PropertyParser::parse`
(`src/property.rs` lines 162-199): parse one value; while the remainder
starts with `','`, strip all leading commas (`trim_start_matches`) and parse
another value.  Each iteration consumes at least one character, so the fuel
(set to the input length) is never exhausted; the fuel-out branch is dead
code. -/
def parseValuesLoopGo (num : Nat) : Nat → Str →
    Except PropertyError (List Str × Str)
  | fuel, s =>
    match parseOneValue num s with
    | .error e => .error e
    | .ok (v, rest) =>
      if rest.head? = some PARAM_VALUE_DELIMITER then
        match fuel with
        | 0 => .error (.missingValue num)
        | fuel + 1 =>
          match parseValuesLoopGo num fuel
              (rest.dropWhile (fun c => c = PARAM_VALUE_DELIMITER)) with
          | .error e => .error e
          | .ok (vs, rest2) => .ok (v :: vs, rest2)
      else
        .ok ([v], rest)

instance {ε α : Type} [DecidableEq ε] [DecidableEq α] :
    DecidableEq (Except ε α) := fun a b =>
  match a, b with
  | .error e1, .error e2 =>
    if h : e1 = e2 then .isTrue (by rw [h]) else .isFalse (by simp [h])
  | .error _, .ok _ => .isFalse (by simp)
  | .ok _, .error _ => .isFalse (by simp)
  | .ok a1, .ok a2 =>
    if h : a1 = a2 then .isTrue (by rw [h]) else .isFalse (by simp [h])

/-- The value loop of `PropertyParser::parse` (`src/property.rs` lines
162-199). -/
def parseValuesLoop (num : Nat) (s : Str) :
    Except PropertyError (List Str × Str) :=
  parseValuesLoopGo num s.length s

theorem parseValuesLoopGo_congr (num : Nat) :
    ∀ (f1 f2 : Nat) (s : Str), s.length ≤ f1 → s.length ≤ f2 →
      parseValuesLoopGo num f1 s = parseValuesLoopGo num f2 s := by
  intro f1
  induction f1 with
  | zero =>
    intro f2 s h1 h2
    have hs : s = [] := List.eq_nil_of_length_eq_zero (Nat.le_zero.mp h1)
    subst hs
    have hnil : parseOneValue num [] =
        .error (.missingContentAfter num PARAM_NAME_DELIMITER) := by
      simp [parseOneValue, PARAM_QUOTE]
    conv_lhs => rw [parseValuesLoopGo]
    conv_rhs => rw [parseValuesLoopGo]
    rw [hnil]
  | succ m ih =>
    intro f2 s h1 h2
    conv_lhs => rw [parseValuesLoopGo]
    conv_rhs => rw [parseValuesLoopGo]
    cases hv : parseOneValue num s with
    | error e => rfl
    | ok p =>
      obtain ⟨v, rest⟩ := p
      dsimp only
      by_cases hc : rest.head? = some PARAM_VALUE_DELIMITER
      · rw [if_pos hc, if_pos hc]
        cases f2 with
        | zero =>
          have : s = [] := List.eq_nil_of_length_eq_zero (Nat.le_zero.mp h2)
          subst this
          simp [parseOneValue, PARAM_QUOTE] at hv
        | succ m2 =>
          have hr : rest.length ≤ s.length :=
            parseOneValue_rest_le num s v rest hv
          have hlt : (rest.dropWhile
              (fun c => c = PARAM_VALUE_DELIMITER)).length < rest.length :=
            length_dropWhile_lt_of_head hc (by simp)
          rw [ih m2 (rest.dropWhile (fun c => c = PARAM_VALUE_DELIMITER))
            (by omega) (by omega)]
      · rw [if_neg hc, if_neg hc]

/-- The loop equation of the value loop, independent of fuel. -/
theorem parseValuesLoop_eq (num : Nat) (s : Str) :
    parseValuesLoop num s =
      match parseOneValue num s with
      | .error e => .error e
      | .ok (v, rest) =>
        if rest.head? = some PARAM_VALUE_DELIMITER then
          match parseValuesLoop num
              (rest.dropWhile (fun c => c = PARAM_VALUE_DELIMITER)) with
          | .error e => .error e
          | .ok (vs, rest2) => .ok (v :: vs, rest2)
        else
          .ok ([v], rest) := by
  unfold parseValuesLoop
  conv_lhs => rw [parseValuesLoopGo]
  cases hv : parseOneValue num s with
  | error e => rfl
  | ok p =>
    obtain ⟨v, rest⟩ := p
    dsimp only
    by_cases hc : rest.head? = some PARAM_VALUE_DELIMITER
    · rw [if_pos hc, if_pos hc]
      cases hs : s.length with
      | zero =>
        have : s = [] := List.eq_nil_of_length_eq_zero hs
        subst this
        simp [parseOneValue, PARAM_QUOTE] at hv
      | succ m =>
        have hr : rest.length ≤ s.length :=
          parseOneValue_rest_le num s v rest hv
        have hlt : (rest.dropWhile
            (fun c => c = PARAM_VALUE_DELIMITER)).length < rest.length :=
          length_dropWhile_lt_of_head hc (by simp)
        dsimp only
        rw [parseValuesLoopGo_congr num m
          (rest.dropWhile (fun c => c = PARAM_VALUE_DELIMITER)).length
          (rest.dropWhile (fun c => c = PARAM_VALUE_DELIMITER))
          (by omega) (Nat.le_refl _)]
    · rw [if_neg hc, if_neg hc]

theorem parseValuesLoop_rest_le_fuel (num : Nat) :
    ∀ (n : Nat) (s : Str), s.length ≤ n → ∀ (vs : List Str) (rest : Str),
      parseValuesLoop num s = .ok (vs, rest) → rest.length ≤ s.length := by
  intro n
  induction n with
  | zero =>
    intro s hs vs rest h
    have hnil : s = [] := List.eq_nil_of_length_eq_zero (Nat.le_zero.mp hs)
    subst hnil
    rw [parseValuesLoop_eq] at h
    simp [parseOneValue, PARAM_QUOTE] at h
  | succ n ih =>
    intro s hs vs rest h
    rw [parseValuesLoop_eq] at h
    split at h
    · exact absurd h (by simp)
    · rename_i v rest1 hv
      split at h
      · rename_i hc
        split at h
        · exact absurd h (by simp)
        · rename_i vs2 rest2 hrec
          simp only [Except.ok.injEq, Prod.mk.injEq] at h
          obtain ⟨-, h2⟩ := h
          have h1 : rest1.length ≤ s.length :=
            parseOneValue_rest_le num s v rest1 hv
          have h3 : (rest1.dropWhile
              (fun c => c = PARAM_VALUE_DELIMITER)).length < rest1.length :=
            length_dropWhile_lt_of_head hc (by simp)
          have h4 := ih (rest1.dropWhile
            (fun c => c = PARAM_VALUE_DELIMITER)) (by omega) vs2 rest2 hrec
          rw [← h2]
          omega
      · simp only [Except.ok.injEq, Prod.mk.injEq] at h
        obtain ⟨-, h2⟩ := h
        rw [← h2]
        exact parseOneValue_rest_le num s v rest1 hv

theorem parseValuesLoop_rest_le (num : Nat) (s : Str) (vs : List Str)
    (rest : Str) (h : parseValuesLoop num s = .ok (vs, rest)) :
    rest.length ≤ s.length :=
  parseValuesLoop_rest_le_fuel num s.length s (Nat.le_refl _) vs rest h

/-- Fuel-driven form of the parameter loop of `PropertyParser::parse`
(`src/property.rs` lines 144-202): while the remainder starts with `';'`,
split off `name=values`; the parameter name is everything up to the first
`'='` (error when the `'='` is missing or the name is empty) and is stored
uppercased.  Each iteration consumes at least the `';'` and the `'='`, so
the fuel (set to the input length) is never exhausted; the fuel-out branch
is dead code. -/
def parseParamsLoopGo (num : Nat) : Nat → Str →
    Except PropertyError (List (Str × List Str) × Str)
  | fuel, s =>
    if s.head? = some PARAM_DELIMITER then
      let t := s.drop 1
      match t.findIdx? (fun c => c = PARAM_NAME_DELIMITER) with
      | none => .error (.missingDelimiter num PARAM_NAME_DELIMITER)
      | some k =>
        let key := t.take k
        if key = [] then .error (.missingParamKey num)
        else
          match parseValuesLoop num (t.drop (k + 1)) with
          | .error e => .error e
          | .ok (values, rest) =>
            match fuel with
            | 0 => .error (.missingParamKey num)
            | fuel + 1 =>
              match parseParamsLoopGo num fuel rest with
              | .error e => .error e
              | .ok (params, rest2) =>
                .ok ((rustUppercase key, values) :: params, rest2)
    else
      .ok ([], s)

/-- The parameter loop of `PropertyParser::parse` (`src/property.rs` lines
144-202). -/
def parseParamsLoop (num : Nat) (s : Str) :
    Except PropertyError (List (Str × List Str) × Str) :=
  parseParamsLoopGo num s.length s

theorem parseParamsLoopGo_congr (num : Nat) :
    ∀ (f1 f2 : Nat) (s : Str), s.length ≤ f1 → s.length ≤ f2 →
      parseParamsLoopGo num f1 s = parseParamsLoopGo num f2 s := by
  intro f1
  induction f1 with
  | zero =>
    intro f2 s h1 h2
    have hs : s = [] := List.eq_nil_of_length_eq_zero (Nat.le_zero.mp h1)
    subst hs
    conv_lhs => rw [parseParamsLoopGo]
    conv_rhs => rw [parseParamsLoopGo]
    have hne : ([] : Str).head? ≠ some PARAM_DELIMITER := by simp
    rw [if_neg hne, if_neg hne]
  | succ m ih =>
    intro f2 s h1 h2
    conv_lhs => rw [parseParamsLoopGo]
    conv_rhs => rw [parseParamsLoopGo]
    by_cases hp : s.head? = some PARAM_DELIMITER
    · rw [if_pos hp, if_pos hp]
      dsimp only
      cases hk : (s.drop 1).findIdx? (fun c => c = PARAM_NAME_DELIMITER) with
      | none => rfl
      | some k =>
        dsimp only
        by_cases hkey : (s.drop 1).take k = []
        · rw [if_pos hkey, if_pos hkey]
        · rw [if_neg hkey, if_neg hkey]
          cases hv : parseValuesLoop num ((s.drop 1).drop (k + 1)) with
          | error e => rfl
          | ok p =>
            obtain ⟨values, rest⟩ := p
            dsimp only
            cases f2 with
            | zero =>
              have : s = [] :=
                List.eq_nil_of_length_eq_zero (Nat.le_zero.mp h2)
              subst this
              simp [PARAM_DELIMITER] at hp
            | succ m2 =>
              have hr : rest.length ≤ ((s.drop 1).drop (k + 1)).length :=
                parseValuesLoop_rest_le num _ values rest hv
              have hd : ((s.drop 1).drop (k + 1)).length ≤ s.length - 2 := by
                simp only [List.length_drop]
                omega
              have hpos : 0 < s.length := by
                cases s with
                | nil => simp at hp
                | cons a u => simp
              rw [ih m2 rest (by omega) (by omega)]
    · rw [if_neg hp, if_neg hp]

/-- The loop equation of the parameter loop, independent of fuel. -/
theorem parseParamsLoop_eq (num : Nat) (s : Str) :
    parseParamsLoop num s =
      if s.head? = some PARAM_DELIMITER then
        let t := s.drop 1
        match t.findIdx? (fun c => c = PARAM_NAME_DELIMITER) with
        | none => .error (.missingDelimiter num PARAM_NAME_DELIMITER)
        | some k =>
          let key := t.take k
          if key = [] then .error (.missingParamKey num)
          else
            match parseValuesLoop num (t.drop (k + 1)) with
            | .error e => .error e
            | .ok (values, rest) =>
              match parseParamsLoop num rest with
              | .error e => .error e
              | .ok (params, rest2) =>
                .ok ((rustUppercase key, values) :: params, rest2)
      else
        .ok ([], s) := by
  unfold parseParamsLoop
  conv_lhs => rw [parseParamsLoopGo]
  by_cases hp : s.head? = some PARAM_DELIMITER
  · rw [if_pos hp, if_pos hp]
    dsimp only
    cases hk : (s.drop 1).findIdx? (fun c => c = PARAM_NAME_DELIMITER) with
    | none => rfl
    | some k =>
      dsimp only
      by_cases hkey : (s.drop 1).take k = []
      · rw [if_pos hkey, if_pos hkey]
      · rw [if_neg hkey, if_neg hkey]
        cases hv : parseValuesLoop num ((s.drop 1).drop (k + 1)) with
        | error e => rfl
        | ok p =>
          obtain ⟨values, rest⟩ := p
          dsimp only
          cases hs : s.length with
          | zero =>
            have : s = [] := List.eq_nil_of_length_eq_zero hs
            subst this
            simp [PARAM_DELIMITER] at hp
          | succ m =>
            have hr : rest.length ≤ ((s.drop 1).drop (k + 1)).length :=
              parseValuesLoop_rest_le num _ values rest hv
            have hd : ((s.drop 1).drop (k + 1)).length ≤ s.length - 2 := by
              simp only [List.length_drop]
              omega
            dsimp only
            rw [parseParamsLoopGo_congr num m rest.length rest
              (by omega) (Nat.le_refl _)]
  · rw [if_neg hp, if_neg hp]

/-- Model of `PropertyParser::parse` (`src/property.rs` lines 129-214): the
name runs to the first `';'` or `':'` (error when absent or empty), then the
parameters, then the `':'` and the raw value; an empty remainder after `':'`
is an absent value. -/
def parseContentLine (num : Nat) (toParse : Str) :
    Except PropertyError ContentLine :=
  match toParse.findIdx? (fun c =>
      c = PARAM_DELIMITER ∨ c = VALUE_DELIMITER) with
  | none => .error (.missingName num)
  | some i =>
    let propName := toParse.take i
    if propName = [] then .error (.missingName num)
    else
      match parseParamsLoop num (toParse.drop i) with
      | .error e => .error e
      | .ok (params, rest) =>
        if rest.head? = some VALUE_DELIMITER then
          let v := rest.drop 1
          .ok ⟨propName, params, if v = [] then none else some v⟩
        else
          .error (.missingValue num)

/-! ## Component parsing (`src/parser/mod.rs`, instantiated at `VALARM`) -/

/-- Model of `CalDateTimeError` (`src/types/mod.rs` lines 18-36). -/
inductive CalDateTimeError where
  | invalidOlson (s : Str)
  | invalidTZID (s : Str)
  | localTimeGap
  | invalidDatetimeFormat (s : Str)
  | parseError (s : Str)
  | invalidDurationFormat (s : Str)
  | invalidPeriodFormat (s : Str)
deriving DecidableEq, Repr

/-- Model of `ParserError` (`src/parser/mod.rs` lines 23-65).  The `RRule`
variant's payload from the external `rrule` crate is dropped. -/
inductive ParserError where
  | emptyInput
  | tooManyComponents
  | invalidComponent (s : Str)
  | notComplete
  | missingHeader
  | propertyError (e : PropertyError)
  | missingProperty (name : Str)
  | missingUID
  | propertyConflict (s : Str)
  | invalidDuration (s : Str)
  | invalidPropertyValue (s : Str)
  | invalidPropertyType (s : Str)
  | rruleError
  | dateTime (e : CalDateTimeError)
  | invalidCalscale
  | invalidVersion
  | multipleMainObjects
  | differingUIDs
  | missingRecurId
  | dtstartNotMatchingRecurId
deriving DecidableEq, Repr

/-- Model of `IcalAlarm` (`src/parser/ical/component/alarm.rs`): a verified
alarm is just its list of content lines; `IcalAlarmBuilder` has the same
shape. -/
structure IcalAlarm where
  properties : List ContentLine
deriving DecidableEq, Repr

/-- Model of `IcalAlarmBuilder::build` (`src/parser/ical/component/alarm.rs`):
always succeeds, carrying the properties over unchanged. -/
def buildAlarm (b : IcalAlarm) : Except ParserError IcalAlarm := .ok b

/-- Model of `Emitter::generate` for `IcalAlarm`, produced by the
`generate_emitter!(IcalAlarm, "VALARM", properties)` macro
(`src/generator/ical.rs` lines 192-214): `BEGIN:VALARM` CRLF, the generated
properties, `END:VALARM` CRLF. -/
def IcalAlarm.generate (a : IcalAlarm) : Str :=
  str "BEGIN:VALARM\r\n" ++
    (a.properties.map ContentLine.generate).flatten ++
    str "END:VALARM\r\n"

/-- Model of the loop of `ComponentMut::parse` (`src/parser/mod.rs` lines
127-145) instantiated at `IcalAlarmBuilder`: read one content line; `END`
stops, `BEGIN` dispatches to `add_sub_component` (which for an alarm always
reports an invalid component, `src/parser/ical/component/alarm.rs`), and
anything else is appended to the property list.  Returns the collected
properties and the unconsumed logical lines. -/
def alarmParseLoop :
    List (Str × Nat) → Except ParserError (List ContentLine × List (Str × Nat))
  | [] => .error .notComplete
  | (l, n) :: rest =>
    match parseContentLine n l with
    | .error e => .error (.propertyError e)
    | .ok line =>
      if line.name = str "END" then .ok ([], rest)
      else if line.name = str "BEGIN" then
        match line.value with
        | some v => .error (.invalidComponent v)
        | none => .error .notComplete
      else
        match alarmParseLoop rest with
        | .error e => .error e
        | .ok (props, rest2) => .ok (line :: props, rest2)

/-- Model of `ComponentParser::check_header` (`src/parser/mod.rs` lines
177-192) at component names `["VALARM"]`: the first line must parse, be
named `BEGIN` with no parameters, and carry a value that uppercases to
`VALARM`. -/
def alarmCheckHeader (lines : List (Str × Nat)) :
    Option (Except ParserError (List (Str × Nat))) :=
  match lines with
  | [] => none
  | (l, n) :: rest =>
    match parseContentLine n l with
    | .error e => some (.error (.propertyError e))
    | .ok line =>
      if line.name ≠ str "BEGIN" ∨ line.value = none ∨
          ¬ (line.value.map rustUppercase = some (str "VALARM")) ∨
          line.params ≠ [] then
        some (.error .missingHeader)
      else
        some (.ok rest)

/-- Model of one step of `impl Iterator for ComponentParser` (`src/parser/
mod.rs` lines 203-229) at `C = IcalAlarm`: check the header, run the parse
loop on a fresh builder, then `build`.  Returns `none` at end of input, and
otherwise the produced component (or error) together with the unconsumed
lines. -/
def alarmParserNext (lines : List (Str × Nat)) :
    Option (Except ParserError IcalAlarm × List (Str × Nat)) :=
  match alarmCheckHeader lines with
  | none => none
  | some (.error e) => some (.error e, lines.drop 1)
  | some (.ok rest) =>
    match alarmParseLoop rest with
    | .error e => some (.error e, rest)
    | .ok (props, rest2) =>
      match buildAlarm ⟨props⟩ with
      | .error e => some (.error e, rest2)
      | .ok alarm => some (.ok alarm, rest2)

/-- The full parse of one `VALARM` component from wire text, as performed by
`ComponentParser::from_slice(...).next()`: unfold physical lines into
logical lines, then run the component parser, returning just the produced
component or error. -/
def parseAlarmText (text : Str) : Option (Except ParserError IcalAlarm) :=
  (alarmParserNext (lineReader text)).map Prod.fst

/-! ## Durations (`src/types/duration.rs`) -/

/-- The character-list-to-number reading for a run of decimal digits, as
`str::parse::<i64>` does on a digit run captured by `RE_DURATION`. -/
def digitsToNat (s : Str) : Nat :=
  s.foldl (fun acc c => acc * 10 + (c.toNat - 48)) 0

/-- One `(\d+)X` group of `RE_DURATION` (`src/types/duration.rs` lines
5-26): a non-empty greedy digit run immediately followed by the designator
`des`; returns the number and the remainder, or `none` when the group does
not match at this position. -/
def numGroup (des : Char) (s : Str) : Option (Nat × Str) :=
  let digits := s.takeWhile Char.isDigit
  let rest := s.dropWhile Char.isDigit
  if digits = [] then none
  else if rest.head? = some des then some (digitsToNat digits, rest.drop 1)
  else none

/-- An optional `((\d+)X)?` group: on no match the position is unchanged and
the captured number contributes zero. -/
def optGroup (des : Char) (s : Str) : Nat × Str :=
  match numGroup des s with
  | some (n, r) => (n, r)
  | none => (0, s)

/-- The `dur-date [T dur-time]` branch of `RE_DURATION`: `(\d+D)?` then
optionally `T (\d+H)? (\d+M)? (\d+S)?`, anchored at the end of the string.
Every group boundary is a distinct designator letter directly after a digit
run, so the regex backtracking is equivalent to this deterministic reading.
Returns the total in seconds (`Duration::days/hours/minutes/seconds`). -/
def durDateBranch (s : Str) : Option Int :=
  let (d, r1) := optGroup 'D' s
  match r1 with
  | [] => some (d * 86400)
  | 'T' :: r2 =>
    let (h, r3) := optGroup 'H' r2
    let (m, r4) := optGroup 'M' r3
    let (sec, r5) := optGroup 'S' r4
    if r5 = [] then some (d * 86400 + h * 3600 + m * 60 + sec) else none
  | _ => none

/-- The `dur-week` branch of `RE_DURATION`: `(\d+W)?` anchored at the end
(`Duration::weeks(n)` is `n * 7` days). -/
def durWeekBranch (s : Str) : Option Int :=
  let (w, r) := optGroup 'W' s
  if r = [] then some (w * 7 * 86400) else none

/-- Model of `parse_duration` (`src/types/duration.rs` lines 44-72): an
optional sign, the literal `P`, then either the date-time branch or the week
branch of `RE_DURATION`; any non-match is an `InvalidDuration` carrying the
input.  The result is in whole seconds, the granularity of every
`chrono::Duration` constructor used by the source. -/
def parseDuration (s : Str) : Except Str Int :=
  let signed : Int × Str :=
    match s with
    | '+' :: rest => (1, rest)
    | '-' :: rest => (-1, rest)
    | _ => (1, s)
  match signed.2 with
  | 'P' :: body =>
    match durDateBranch body with
    | some secs => .ok (signed.1 * secs)
    | none =>
      match durWeekBranch body with
      | some secs => .ok (signed.1 * secs)
      | none => .error s
  | _ => .error s

/-! ## Date/time/timezone model (`src/types/timezone.rs`,
`src/types/datetime.rs`, `src/types/date.rs`) -/

/-- Model of `enum Timezone` (`src/types/timezone.rs` lines 5-9): floating
local time, or an Olson timezone.  `chrono_tz::Tz` is an enumeration of
timezone names, identified here by the name string; equality of `Tz` values
is equality of names. -/
inductive Timezone where
  | local
  | olson (id : Str)
deriving DecidableEq, Repr

/-- Model of `Timezone::utc()` (`src/types/timezone.rs` lines 16-18). -/
def Timezone.utc : Timezone := .olson (str "UTC")

/-- Model of `Timezone::is_local` (`src/types/timezone.rs` lines 12-14). -/
def Timezone.is_local : Timezone → Bool
  | .local => true
  | .olson _ => false

/-- The timezone database of the external `chrono-tz` crate, supplied as a
parameter rather than modelled: `localToInstant tz naive` is
`tz.offset_from_local_datetime(naive).earliest()` converted to a UTC
instant (`none` models a DST gap), and `instantToLocal tz instant` is the
local naive time of a UTC instant in that zone (total, as in `chrono`).
Both functions must agree with `chrono-tz` on the zone names used; the UTC
zone has offset zero. -/
structure TzDb where
  localToInstant : Str → Int → Option Int
  instantToLocal : Str → Int → Int
  utc_localToInstant : ∀ t, localToInstant (str "UTC") t = some t
  utc_instantToLocal : ∀ t, instantToLocal (str "UTC") t = t

/-- The naive local time of an instant under a `Timezone`; floating local
time has offset zero (`CalTimezoneOffset::Local` fixes to `Utc.fix()`,
`src/types/timezone.rs` lines 45-52). -/
def Timezone.toLocal (db : TzDb) : Timezone → Int → Int
  | .local, t => t
  | .olson id, t => db.instantToLocal id t

/-- The UTC instant of a naive local time under a `Timezone`
(`offset_from_local_datetime(..).earliest()`; `none` models a DST gap,
which cannot happen for floating local time). -/
def Timezone.fromLocal (db : TzDb) : Timezone → Int → Option Int
  | .local, t => some t
  | .olson id, t => db.localToInstant id t

/-- Model of `CalDateTime` (`src/types/datetime.rs` line 15):
`DateTime<Timezone>`, a UTC instant (in seconds, the resolution of every
value this code parses) together with its timezone.  `chrono` equality and
ordering of `DateTime` values compare the instants only, modelled by
`CalDateTime.eqb` and `CalDateTime.cmp` below; the derived `DecidableEq` is
structural and is only used to state theorems. -/
structure CalDateTime where
  instant : Int
  tz : Timezone
deriving DecidableEq, Repr

/-- `chrono::DateTime` equality: same instant (the timezone is ignored). -/
def CalDateTime.eqb (a b : CalDateTime) : Bool := a.instant = b.instant

/-- `chrono::DateTime` ordering: by instant. -/
def CalDateTime.cmp (a b : CalDateTime) : Ordering :=
  compare a.instant b.instant

/-- Model of `NaiveDate` as days since the epoch 1970-01-01. -/
abbrev NaiveDays : Type := Int

/-- Model of `CalDate` (`src/types/date.rs` line 12): a naive calendar date
and a `Timezone`.  Its derived Rust `PartialEq` is structural (both
components), unlike `CalDateTime`. -/
structure CalDate where
  days : NaiveDays
  tz : Timezone
deriving DecidableEq, Repr

/-- Model of `CalDate::as_datetime` (`src/types/date.rs` lines 79-85):
midnight of the date in its own timezone.  The `.expect("Midnight always
exists")` on a DST gap at midnight is modelled by falling back to the naive
value (no claim involves a zone with a midnight gap). -/
def CalDate.as_datetime (db : TzDb) (d : CalDate) : CalDateTime :=
  ⟨(d.tz.fromLocal db (d.days * 86400)).getD (d.days * 86400), d.tz⟩

/-- Model of the `Ord` instance of `CalDate` (`src/types/date.rs` lines
20-24): dates compare through `as_datetime`. -/
def CalDate.cmp (db : TzDb) (a b : CalDate) : Ordering :=
  (a.as_datetime db).cmp (b.as_datetime db)

/-- Model of `CalDateOrDateTime` (`src/types/dateordatetime.rs` lines
13-17), with the constructors in source order (the derived `Ord` compares
constructors first). -/
inductive CalDateOrDateTime where
  | dateTime (dt : CalDateTime)
  | date (d : CalDate)
deriving DecidableEq, Repr

/-- The derived Rust `PartialEq` of `CalDateOrDateTime`: different variants
differ; `DateTime` payloads compare as instants, `Date` payloads
structurally. -/
def CalDateOrDateTime.eqb : CalDateOrDateTime → CalDateOrDateTime → Bool
  | .dateTime a, .dateTime b => a.eqb b
  | .date a, .date b => a = b
  | _, _ => false

/-- The derived Rust `Ord` of `CalDateOrDateTime`: by variant (in
declaration order `DateTime < Date`), then by payload. -/
def CalDateOrDateTime.cmp (db : TzDb) :
    CalDateOrDateTime → CalDateOrDateTime → Ordering
  | .dateTime a, .dateTime b => a.cmp b
  | .date a, .date b => a.cmp db b
  | .dateTime _, .date _ => .lt
  | .date _, .dateTime _ => .gt

/-- Model of `CalDateOrDateTime::is_date` (`src/types/dateordatetime.rs`
lines 34-36). -/
def CalDateOrDateTime.is_date : CalDateOrDateTime → Bool
  | .date _ => true
  | .dateTime _ => false

/-- Model of `CalDateOrDateTime::timezone` (`src/types/dateordatetime.rs`
lines 52-57). -/
def CalDateOrDateTime.timezone : CalDateOrDateTime → Timezone
  | .dateTime dt => dt.tz
  | .date d => d.tz

/-! ### Calendar arithmetic, modelling `chrono`'s proleptic Gregorian
calendar -/

/-- Whether a year is a leap year (proleptic Gregorian, as `chrono`). -/
def isLeapYear (y : Int) : Bool :=
  (y % 4 = 0 ∧ y % 100 ≠ 0) ∨ y % 400 = 0

/-- Days in a month (proleptic Gregorian, as `chrono`). -/
def daysInMonth (y : Int) (m : Nat) : Nat :=
  if m = 2 then (if isLeapYear y then 29 else 28)
  else if m = 4 ∨ m = 6 ∨ m = 9 ∨ m = 11 then 30
  else 31

/-- Days since 1970-01-01 of a civil date (the standard `days_from_civil`
algorithm, agreeing with `chrono`'s proleptic Gregorian calendar). -/
def daysFromCivil (y : Int) (m d : Nat) : Int :=
  let y' := if m ≤ 2 then y - 1 else y
  let era : Int := (if 0 ≤ y' then y' else y' - 399) / 400
  let yoe : Int := y' - era * 400
  let mp : Int := ((m : Int) + 9) % 12
  let doy : Int := (153 * mp + 2) / 5 + (d : Int) - 1
  let doe : Int := yoe * 365 + yoe / 4 - yoe / 100 + doy
  era * 146097 + doe - 719468

/-! ### Date-time string parsing (`%Y%m%dT%H%M%S` and the `Z` variant) -/

/-- Whether every character of the list is an ASCII digit. -/
def allDigits (s : Str) : Bool := s.all Char.isDigit

/-- Model of `NaiveDateTime::parse_from_str(value, "%Y%m%dT%H%M%S")`
(`src/types/datetime.rs` line 7): exactly `YYYYMMDDTHHMMSS` with a valid
civil date and time of day; the result is the naive timestamp in seconds.
(`chrono` additionally accepts a leap second `60`, folded into the nanosecond
field; no value in this development carries one.) -/
def parseLocalDateTime (s : Str) : Option Int :=
  if h : s.length = 15 then
    let y := s.take 4
    let mo := (s.drop 4).take 2
    let d := (s.drop 6).take 2
    let t := (s.drop 8).take 1
    let hh := (s.drop 9).take 2
    let mi := (s.drop 11).take 2
    let ss := (s.drop 13).take 2
    if allDigits y ∧ allDigits mo ∧ allDigits d ∧ t = ['T'] ∧
        allDigits hh ∧ allDigits mi ∧ allDigits ss then
      let yn : Int := (digitsToNat y : Int)
      let mon := digitsToNat mo
      let dn := digitsToNat d
      let hn := digitsToNat hh
      let min := digitsToNat mi
      let sn := digitsToNat ss
      if 1 ≤ mon ∧ mon ≤ 12 ∧ 1 ≤ dn ∧ dn ≤ daysInMonth yn mon ∧
          hn < 24 ∧ min < 60 ∧ sn < 60 then
        some (daysFromCivil yn mon dn * 86400 +
          (hn : Int) * 3600 + (min : Int) * 60 + (sn : Int))
      else none
    else none
  else none

/-- Model of `NaiveDateTime::parse_from_str(value, "%Y%m%dT%H%M%SZ")`
(`src/types/datetime.rs` line 8). -/
def parseUtcDateTime (s : Str) : Option Int :=
  if s.getLast? = some 'Z' then parseLocalDateTime s.dropLast else none

/-- Model of `CalDateTime::parse` (`src/types/datetime.rs` lines 90-113):
try the local format, attaching the given Olson zone (errors on a DST gap)
or floating local time; then the UTC format; otherwise the format error. -/
def CalDateTime.parse (db : TzDb) (value : Str) (timezone : Option Str) :
    Except CalDateTimeError CalDateTime :=
  match parseLocalDateTime value with
  | some naive =>
    match timezone with
    | some tzid =>
      match db.localToInstant tzid naive with
      | some inst => .ok ⟨inst, .olson tzid⟩
      | none => .error .localTimeGap
    | none => .ok ⟨naive, .local⟩
  | none =>
    match parseUtcDateTime value with
    | some naive => .ok ⟨naive, .olson (str "UTC")⟩
    | none => .error (.invalidDatetimeFormat value)

/-- A per-document timezone table, `HashMap<String, Option<chrono_tz::Tz>>`
in the source: declared identifier to resolved Olson zone, where `none`
records a declared-but-unresolvable ("unknown") identifier.  A hash map
holds at most one entry per key; the association list is read through
`lookupTz`. -/
abbrev TzTable : Type := List (Str × Option Str)

/-- Model of `HashMap::get` on the timezone table. -/
def lookupTz (tzs : TzTable) (tzid : Str) : Option (Option Str) :=
  (tzs.find? (fun kv => kv.1 = tzid)).map Prod.snd

/-- Model of `CalDateTime::parse_prop` (`src/types/datetime.rs` lines
56-80): an absent value is a format error; a `TZID` parameter is looked up
in the timezone table (an undeclared identifier is an `InvalidTZID` error, a
declared-but-unknown identifier resolves to `None` and the value is parsed
without a zone); without `TZID` the value is parsed without a zone. -/
def CalDateTime.parse_prop (db : TzDb) (prop : ContentLine)
    (timezones : TzTable) : Except CalDateTimeError CalDateTime :=
  match prop.value with
  | none => .error (.invalidDatetimeFormat (str "empty property"))
  | some v =>
    match prop.get_param (str "TZID") with
    | some tzid =>
      match lookupTz timezones tzid with
      | some tzopt => CalDateTime.parse db v tzopt
      | none => .error (.invalidTZID tzid)
    | none => CalDateTime.parse db v none

/-- A trivial timezone database in which every zone has offset zero; used to
instantiate theorems that do not depend on offsets. -/
def flatTzDb : TzDb where
  localToInstant := fun _ t => some t
  instantToLocal := fun _ t => t
  utc_localToInstant := fun _ => rfl
  utc_instantToLocal := fun _ => rfl

/-- Claim C7: when a date/time property carries a `TZID` parameter, an
identifier never declared in the document's timezone table makes
`CalDateTime::parse_prop` fail with `InvalidTZID`, while an identifier
declared but resolved to "unknown" (`None` in the table) parses
successfully — for a value in the local date-time format — to a floating
local value. -/
theorem tzid_undeclared_errors_unknown_is_floating (db : TzDb)
    (prop : ContentLine) (tzs : TzTable) (tzid v : Str)
    (hv : prop.value = some v)
    (ht : prop.get_param (str "TZID") = some tzid) :
    (lookupTz tzs tzid = none →
      CalDateTime.parse_prop db prop tzs =
        .error (.invalidTZID tzid)) ∧
    (∀ naive : Int, lookupTz tzs tzid = some none →
      parseLocalDateTime v = some naive →
      CalDateTime.parse_prop db prop tzs = .ok ⟨naive, .local⟩) := by
  constructor
  · intro hl
    unfold CalDateTime.parse_prop
    rw [hv, ht]
    dsimp only
    rw [hl]
  · intro naive hl hp
    unfold CalDateTime.parse_prop
    rw [hv, ht]
    dsimp only
    rw [hl]
    dsimp only
    unfold CalDateTime.parse
    rw [hp]

/-- Witness for C7 at `DTSTART;TZID=X:20201206T170000`: with `X` undeclared
the parse fails with `InvalidTZID`, and with `X` declared as unknown it
succeeds as the floating local instant 2020-12-06T17:00:00. -/
theorem tzid_undeclared_errors_unknown_is_floating_witness :
    CalDateTime.parse_prop flatTzDb
        ⟨str "DTSTART", [(str "TZID", [str "X"])],
          some (str "20201206T170000")⟩ [] =
      .error (.invalidTZID (str "X")) ∧
    CalDateTime.parse_prop flatTzDb
        ⟨str "DTSTART", [(str "TZID", [str "X"])],
          some (str "20201206T170000")⟩ [(str "X", none)] =
      .ok ⟨1607274000, .local⟩ :=
  ⟨(tzid_undeclared_errors_unknown_is_floating flatTzDb _ [] (str "X")
      (str "20201206T170000") (by decide) (by decide)).1 (by decide),
   (tzid_undeclared_errors_unknown_is_floating flatTzDb _
      [(str "X", none)] (str "X") (str "20201206T170000") (by decide)
      (by decide)).2 1607274000 (by decide) (by decide)⟩

/-- Claim C10: `parse_duration` accepts the designator-only strings `"P"`
and `"PT"` (no numeric components) and returns the zero duration rather
than a malformed-duration error. -/
theorem parse_duration_accepts_bare_designators :
    parseDuration (str "P") = .ok 0 ∧ parseDuration (str "PT") = .ok 0 := by
  decide

/-- Claim C6 (code bug): `PropertyParser::parse` stores the property name
verbatim — two lines differing only in the case of the property name yield
different stored names — although the module documentation of
`src/property.rs` promises "A name formated in uppercase"; parameter names,
in contrast, are uppercased as documented. -/
theorem property_name_is_not_case_normalized :
    parseContentLine 1 (str "version;x=a:v") =
      .ok ⟨str "version", [(str "X", [str "a"])], some (str "v")⟩ ∧
    parseContentLine 1 (str "VERSION;x=a:v") =
      .ok ⟨str "VERSION", [(str "X", [str "a"])], some (str "v")⟩ ∧
    str "version" ≠ str "VERSION" := by
  decide

/-! ## Rendering of date/time values (`CalDateTime::format`,
`CalDate::format` and the `Value` conversions used by the generator) -/

/-- The civil date of a day count since 1970-01-01 (the standard
`civil_from_days` algorithm, the inverse of `daysFromCivil`). -/
def civilFromDays (z0 : Int) : Int × Int × Int :=
  let z := z0 + 719468
  let era := (if 0 ≤ z then z else z - 146096) / 146097
  let doe := z - era * 146097
  let yoe := (doe - doe / 1460 + doe / 36524 - doe / 146096) / 365
  let y := yoe + era * 400
  let doy := doe - (365 * yoe + yoe / 4 - yoe / 100)
  let mp := (5 * doy + 2) / 153
  let d := doy - (153 * mp + 2) / 5 + 1
  let m := if mp < 10 then mp + 3 else mp - 9
  ((if m ≤ 2 then y + 1 else y), m, d)

/-- Left-pad a digit string with zeroes to the given width. -/
def padZeroes (w : Nat) (s : Str) : Str :=
  List.replicate (w - s.length) '0' ++ s

/-- The decimal digits of a non-negative integer (clamped at zero, as every
formatted field here is non-negative). -/
def intDigits (n : Int) : Str := Nat.toDigits 10 n.toNat

/-- Format a naive timestamp (seconds) as `%Y%m%d`. -/
def formatNaiveDate (days : NaiveDays) : Str :=
  let c := civilFromDays days
  padZeroes 4 (intDigits c.1) ++ padZeroes 2 (intDigits c.2.1) ++
    padZeroes 2 (intDigits c.2.2)

/-- Format a naive timestamp (seconds) as `%Y%m%dT%H%M%S`. -/
def formatNaiveDateTime (t : Int) : Str :=
  let days := Int.ediv t 86400
  let sod := Int.emod t 86400
  formatNaiveDate days ++ ['T'] ++
    padZeroes 2 (intDigits (sod / 3600)) ++
    padZeroes 2 (intDigits (sod / 60 % 60)) ++
    padZeroes 2 (intDigits (sod % 60))

/-- Model of `CalDateTime::format` (`src/types/datetime.rs` lines 83-88):
the UTC zone renders as `%Y%m%dT%H%M%SZ`; every other timezone renders its
own local time as `%Y%m%dT%H%M%S` (a `DateTime` formats in its own
offset). -/
def CalDateTime.format (db : TzDb) (dt : CalDateTime) : Str :=
  match dt.tz with
  | .olson id =>
    if id = str "UTC" then formatNaiveDateTime dt.instant ++ ['Z']
    else formatNaiveDateTime (db.instantToLocal id dt.instant)
  | .local => formatNaiveDateTime dt.instant

/-- Model of `CalDate::format` (`src/types/date.rs` lines 74-76):
`%Y%m%d`. -/
def CalDate.format (d : CalDate) : Str := formatNaiveDate d.days

/-- Model of `CalDateOrDateTime::format` (`src/types/dateordatetime.rs`
lines 73-78). -/
def CalDateOrDateTime.format (db : TzDb) : CalDateOrDateTime → Str
  | .dateTime dt => dt.format db
  | .date d => d.format

/-- Model of `CalDateOrDateTime::value_type` (`src/types/dateordatetime.rs`
lines 80-85). -/
def CalDateOrDateTime.value_type : CalDateOrDateTime → Str
  | .dateTime _ => str "DATE-TIME"
  | .date _ => str "DATE"

/-- Model of `CalDateOrDateTime::utc` (`src/types/dateordatetime.rs` lines
59-64): a date-time yields its instant; a date-only value is its naive
midnight read as UTC (`and_time(default).and_utc()`, no zone conversion). -/
def CalDateOrDateTime.utc : CalDateOrDateTime → Int
  | .dateTime dt => dt.instant
  | .date d => d.days * 86400

/-- Model of `CalDateTime::utc_or_local`.

Modelled from the spec: the function itself is absent from the source
snapshot (`src/types/dateordatetime.rs` line 68 and `src/types/period.rs`
line 28 call it).  Spec §4.5 step 5: before expansion values are
"normalized to a canonical floating-or-UTC representation"; floating local
values stay floating, every zoned value is rewritten to UTC (the same
instant, as `CalDate::utc_or_local` in `src/types/date.rs` keeps the naive
value and swaps the timezone tag for `Timezone::utc()`). -/
def CalDateTime.utc_or_local (dt : CalDateTime) : CalDateTime :=
  if dt.tz.is_local then dt else ⟨dt.instant, Timezone.utc⟩

/-- Model of `CalDate::utc_or_local` (`src/types/date.rs` lines 138-145):
keep the naive date, replace the timezone by `Local` or `UTC`. -/
def CalDate.utc_or_local (d : CalDate) : CalDate :=
  ⟨d.days, if d.tz.is_local then .local else Timezone.utc⟩

/-- Model of `CalDateOrDateTime::utc_or_local`
(`src/types/dateordatetime.rs` lines 66-71). -/
def CalDateOrDateTime.utc_or_local : CalDateOrDateTime → CalDateOrDateTime
  | .dateTime dt => .dateTime dt.utc_or_local
  | .date d => .date d.utc_or_local

/-- Model of `From<CalDateOrDateTime> for CalDateTime`
(`src/types/dateordatetime.rs` lines 102-109): a date becomes the
`as_datetime` of its midnight. -/
def CalDateOrDateTime.toCalDateTime (db : TzDb) :
    CalDateOrDateTime → CalDateTime
  | .dateTime dt => dt
  | .date d => d.as_datetime db

/-- Model of `From<CalDateOrDateTime> for DateTime<rrule::Tz>`
(`src/types/dateordatetime.rs` lines 111-120), reduced to the instant. -/
def CalDateOrDateTime.toInstant (db : TzDb) (v : CalDateOrDateTime) : Int :=
  (v.toCalDateTime db).instant

/-! ## Periods (`src/types/period.rs`) -/

/-- Model of `DateTimeOrDuration` (`src/types/period.rs` lines 11-14). -/
inductive DateTimeOrDuration where
  | dateTime (dt : CalDateTime)
  | duration (secs : Int)
deriving DecidableEq, Repr

/-- Model of `Period` (`src/types/period.rs` line 49). -/
structure Period where
  start : CalDateTime
  finish : DateTimeOrDuration
deriving DecidableEq, Repr

/-- Model of `DateOrDateTimeOrPeriod` (`src/types/period.rs` lines
107-111). -/
inductive DateOrDateTimeOrPeriod where
  | dateOrDateTime (v : CalDateOrDateTime)
  | period (p : Period)
deriving DecidableEq, Repr

/-- Model of `DateOrDateTimeOrPeriod::start` (`src/types/period.rs` lines
129-134). -/
def DateOrDateTimeOrPeriod.start : DateOrDateTimeOrPeriod → CalDateOrDateTime
  | .dateOrDateTime v => v
  | .period p => .dateTime p.start

/-- Model of `DateTimeOrDuration::utc_or_local` (`src/types/period.rs`
lines 26-31). -/
def DateTimeOrDuration.utc_or_local : DateTimeOrDuration → DateTimeOrDuration
  | .dateTime dt => .dateTime dt.utc_or_local
  | .duration d => .duration d

/-- Model of `Period::utc_or_local` (`src/types/period.rs` lines 88-90). -/
def Period.utc_or_local (p : Period) : Period :=
  ⟨p.start.utc_or_local, p.finish.utc_or_local⟩

/-- Model of `DateOrDateTimeOrPeriod::utc_or_local` (`src/types/period.rs`
lines 136-141). -/
def DateOrDateTimeOrPeriod.utc_or_local :
    DateOrDateTimeOrPeriod → DateOrDateTimeOrPeriod
  | .dateOrDateTime v => .dateOrDateTime v.utc_or_local
  | .period p => .period p.utc_or_local

/-! ## The verified event record (`src/parser/ical/component/event/mod.rs`)
-/

/-- Parameter lists of the typed property wrappers
(`crate::property::ContentLineParams`, same shape as a content line's
parameter list). -/
abbrev Params : Type := List (Str × List Str)

/-- Model of `ContentLineParams::remove`: drop every parameter with the
given name (the `ContentLineParams` type itself is absent from the source
snapshot; its `remove` is used by the `utc_or_local` implementations to
drop the `TZID` parameter, spec §4.5 step 5: normalization "also rewrites
the corresponding textual properties"). -/
def Params.remove (ps : Params) (name : Str) : Params :=
  ps.filter (fun kv => ¬ kv.1 = name)

/-- Model of `ContentLineParams::replace_param` (absent from the source
snapshot, used by the property-to-content-line conversion macro in
`src/parser/property/mod.rs` lines 200-204): replace any existing values of
the parameter with the single given value, appending the parameter when it
was absent. -/
def Params.replace_param (ps : Params) (name : Str) (value : Str) : Params :=
  (ps.filter (fun kv => ¬ kv.1 = name)) ++ [(name, [value])]

/-- Model of `RecurIdRange` (`src/parser/property/recurid.rs` lines
10-14). -/
inductive RecurIdRange where
  | this
  | thisAndFuture
deriving DecidableEq, Repr

/-- Model of the verified `IcalEvent` record
(`src/parser/ical/component/event/mod.rs` lines 20-35).  The typed property
wrappers are inlined as pairs: `dtstamp` is `IcalDTSTAMPProperty`
(a `CalDateTime` and its parameter list), `dtstart`/`dtend` are
`IcalDTSTARTProperty`/`IcalDTENDProperty` (`CalDateOrDateTime` and
parameters), `duration` is `IcalDURATIONProperty` (seconds and parameters),
`rdates` are `IcalRDATEProperty` values (date/period lists and an optional
`TZID`), `exdates` are `IcalEXDATEProperty` values, `recurid` is
`IcalRECURIDProperty` (value and range) and `summary` is
`IcalSUMMARYProperty`.  Validated recurrence rules of the external `rrule`
crate are an opaque type parameter `R`. -/
structure IcalEvent (R : Type) where
  uid : Str
  dtstamp : CalDateTime × Params
  dtstart : CalDateOrDateTime × Params
  dtend : Option (CalDateOrDateTime × Params)
  duration : Option (Int × Params)
  rdates : List (List DateOrDateTimeOrPeriod × Option Str)
  rrules : List R
  exdates : List (List CalDateOrDateTime × Params)
  exrules : List R
  recurid : Option (CalDateOrDateTime × RecurIdRange)
  summary : Option (Str × Params)
  properties : List ContentLine
  alarms : List IcalAlarm
deriving DecidableEq, Repr

/-- Model of `IcalEvent::get_uid` (`src/parser/ical/component/event/mod.rs`
lines 38-40). -/
def IcalEvent.get_uid {R : Type} (e : IcalEvent R) : Str := e.uid

/-- Model of `IcalEvent::has_rruleset`
(`src/parser/ical/component/event/mod.rs` lines 116-121). -/
def IcalEvent.has_rruleset {R : Type} (e : IcalEvent R) : Bool :=
  ¬ e.rrules.isEmpty ∨ ¬ e.rdates.isEmpty ∨ ¬ e.exrules.isEmpty ∨
    ¬ e.exdates.isEmpty

/-! ## Grouping into calendar objects
(`src/parser/ical/component/calendar_object.rs`) -/

/-- The outcome of Rust code that can return a value, return an error, or
`panic!`. -/
inductive POut (α : Type) where
  | ok (val : α)
  | err (e : ParserError)
  | panic (msg : Str)
deriving DecidableEq, Repr

/-- Sequencing of panicking fallible computations (Rust `?` plus panic
propagation). -/
def POut.bind {α β : Type} : POut α → (α → POut β) → POut β
  | .ok a, f => f a
  | .err e, _ => .err e
  | .panic m, _ => .panic m

instance : Monad POut where
  pure := .ok
  bind := POut.bind

/-- Model of `CalendarInnerData::from_events`
(`src/parser/ical/component/calendar_object.rs` lines 139-159): pick the
first event carrying recurrence data as the main instance (defaulting to
index 0), then `panic!` — not `Err` — on a differing UID, on a second
instance with recurrence data, on an override without a `RECURRENCE-ID`,
and on an override whose UID differs from the main instance's.
`Vec::remove(0)` on an empty vector also panics. -/
def fromEvents {R : Type} (events : List (IcalEvent R)) :
    POut (IcalEvent R × List (IcalEvent R)) :=
  let mainIdx := (events.findIdx? IcalEvent.has_rruleset).getD 0
  match events[mainIdx]? with
  | none => .panic (str "removal index out of bounds")
  | some main =>
    let rest := events.eraseIdx mainIdx
    if rest.any (fun o => o.get_uid ≠ main.get_uid) then
      .panic (str "Differing UIDs")
    else if rest.any IcalEvent.has_rruleset then
      .panic (str "Multiple main events not allowed")
    else if rest.any (fun e => e.recurid = none) then
      .panic (str "Event overrides MUST have a RECURRENCE-ID")
    else if rest.any (fun e => e.get_uid ≠ main.get_uid) then
      .panic (str "Overrides MUST have the same UID as the main object")
    else
      .ok (main, rest)

/-! ## Recurrence expansion (`src/parser/ical/component/event/mod.rs`) -/

/-- Serialization of a `chrono::Duration` value.

Modelled from the spec: the `impl Value for chrono::Duration` providing
`value()` is absent from the source snapshot; spec §4.6 serializes typed
values back to their wire grammar, so a duration renders in the RFC 5545
duration grammar (sign, `P`, `T`, seconds). -/
def durationValue (secs : Int) : Str :=
  (if secs < 0 then ['-'] else []) ++ ['P', 'T'] ++
    intDigits (if secs < 0 then -secs else secs) ++ ['S']

/-- Conversion of `IcalDTSTARTProperty` to a `ContentLine`
(the `property!` macro, `src/parser/property/mod.rs` lines 198-211):
a `VALUE` parameter is materialized when the value type differs from the
default `DATE-TIME`, and the value renders through `Value::value`. -/
def dtstartToContentLine (db : TzDb) (p : CalDateOrDateTime × Params) :
    ContentLine :=
  let params :=
    if p.1.value_type = str "DATE-TIME" then p.2
    else p.2.replace_param (str "VALUE") p.1.value_type
  ⟨str "DTSTART", params, some (p.1.format db)⟩

/-- Conversion of `IcalDTENDProperty` to a `ContentLine` (same macro). -/
def dtendToContentLine (db : TzDb) (p : CalDateOrDateTime × Params) :
    ContentLine :=
  let params :=
    if p.1.value_type = str "DATE-TIME" then p.2
    else p.2.replace_param (str "VALUE") p.1.value_type
  ⟨str "DTEND", params, some (p.1.format db)⟩

/-- Conversion of `IcalDTSTAMPProperty` to a `ContentLine` (same macro; a
`CalDateTime` value always has the default type `DATE-TIME`). -/
def dtstampToContentLine (db : TzDb) (p : CalDateTime × Params) :
    ContentLine :=
  ⟨str "DTSTAMP", p.2, some (p.1.format db)⟩

/-- Conversion of `IcalDURATIONProperty` to a `ContentLine` (same macro; a
duration always has the default type `DURATION`). -/
def durationToContentLine (p : Int × Params) : ContentLine :=
  ⟨str "DURATION", p.2, some (durationValue p.1)⟩

/-- Conversion of `IcalRECURIDProperty` to a `ContentLine`
(`src/parser/property/recurid.rs`, the `From` impl): fresh parameters, a
`VALUE` parameter when the value is date-only, a `RANGE=THISANDFUTURE`
parameter for that range, and the formatted value. -/
def recuridToContentLine (db : TzDb)
    (p : CalDateOrDateTime × RecurIdRange) : ContentLine :=
  let params : Params :=
    (if p.1.value_type = str "DATE-TIME" then []
     else [(str "VALUE", [p.1.value_type])]) ++
    (if p.2 = RecurIdRange.thisAndFuture then
      [(str "RANGE", [str "THISANDFUTURE"])]
     else [])
  ⟨str "RECURRENCE-ID", params, some (p.1.format db)⟩

/-- Model of `IcalEvent::replace_or_push_property`
(`src/parser/ical/component/event/mod.rs` lines 151-159): find the position
of the first property with the wrapper's name, remove every property with
that name, and insert the converted line at that position; append when the
name was absent. -/
def replaceOrPush (props : List ContentLine) (name : Str)
    (line : ContentLine) : List ContentLine :=
  match props.findIdx? (fun p => p.name = name) with
  | some pos => (props.filter (fun p => ¬ p.name = name)).insertIdx pos line
  | none => props ++ [line]

/-- Model of `IcalEvent::to_utc_or_local`
(`src/parser/ical/component/event/mod.rs` lines 68-105): normalize
`DTSTART`, `DTSTAMP`, `EXDATE`s, `RDATE`s and `DTEND` to floating-or-UTC
(each wrapper's `utc_or_local` drops its `TZID` parameter; an `RDATE`
clears its recorded `TZID`), then rewrite the corresponding content lines
in place. -/
def IcalEvent.to_utc_or_local {R : Type} (db : TzDb) (e : IcalEvent R) :
    IcalEvent R :=
  let dtstart := (e.dtstart.1.utc_or_local, e.dtstart.2.remove (str "TZID"))
  let dtstamp := (e.dtstamp.1.utc_or_local, e.dtstamp.2.remove (str "TZID"))
  let exdates := e.exdates.map (fun p =>
    (p.1.map CalDateOrDateTime.utc_or_local, p.2.remove (str "TZID")))
  let rdates := e.rdates.map (fun p =>
    (p.1.map DateOrDateTimeOrPeriod.utc_or_local, (none : Option Str)))
  let dtend := e.dtend.map (fun p =>
    (p.1.utc_or_local, p.2.remove (str "TZID")))
  let props1 := replaceOrPush e.properties (str "DTSTART")
    (dtstartToContentLine db dtstart)
  let props2 := replaceOrPush props1 (str "DTSTAMP")
    (dtstampToContentLine db dtstamp)
  let props3 :=
    match dtend with
    | some d => replaceOrPush props2 (str "DTEND") (dtendToContentLine db d)
    | none => props2
  { e with
    dtstart := dtstart
    dtstamp := dtstamp
    exdates := exdates
    rdates := rdates
    dtend := dtend
    properties := props3 }

/-- Model of `IcalEvent::get_duration`
(`src/parser/ical/component/event/mod.rs` lines 107-114): the explicit
`DTEND` minus `DTSTART` (via their UTC instants), else the explicit
duration. -/
def IcalEvent.get_duration {R : Type} (e : IcalEvent R) : Option Int :=
  match e.dtend with
  | some (dtend, _) => some (dtend.utc - e.dtstart.1.utc)
  | none => e.duration.map Prod.fst

/-- The recurrence set assembled by `IcalEvent::get_rruleset`
(`src/parser/ical/component/event/mod.rs` lines 123-149) before the window
is applied: the anchor instant, the rules, the explicit inclusion instants
(period starts), the exclusion rules and instants, and the window bounds
set by `.after`/`.before`.  The set itself belongs to the external `rrule`
crate; its date iterator is a parameter wherever it is consumed. -/
structure RRuleSetM (R : Type) where
  dtstart : Int
  rrules : List R
  rdates : List Int
  exrules : List R
  exdates : List Int
  afterW : Option Int
  beforeW : Option Int
deriving DecidableEq, Repr

/-- Model of `IcalEvent::get_rruleset`
(`src/parser/ical/component/event/mod.rs` lines 123-149). -/
def IcalEvent.get_rruleset {R : Type} (db : TzDb) (e : IcalEvent R)
    (dtstart : Int) : Option (RRuleSetM R) :=
  if e.has_rruleset then
    some
      { dtstart := dtstart
        rrules := e.rrules
        rdates := e.rdates.flatMap (fun p =>
          p.1.map (fun date => date.start.toInstant db))
        exrules := e.exrules
        exdates := e.exdates.flatMap (fun p =>
          p.1.map (fun date => date.toInstant db))
        afterW := none
        beforeW := none }
  else none

/-- The sort key of an override: its `RECURRENCE-ID` value.  The source
`unwrap`s (`overrides.sort_by_key(|over| over.recurid.as_ref().unwrap()...)`
and the override-matching loop) and panics when an override has no
`RECURRENCE-ID`; the model substitutes a fixed default there, and every
theorem about expansion assumes the `RECURRENCE-ID`s are present, which the
grouping invariant guarantees. -/
def recuridKey {R : Type} (o : IcalEvent R) : CalDateOrDateTime :=
  match o.recurid with
  | some (dt, _) => dt
  | none => .dateTime ⟨0, .local⟩

/-- The range of an override's `RECURRENCE-ID`, with the same `unwrap`
convention as `recuridKey`. -/
def recuridRange {R : Type} (o : IcalEvent R) : RecurIdRange :=
  match o.recurid with
  | some (_, r) => r
  | none => .this

/-- Stable insertion into a key-sorted list: walk past strictly smaller
keys, so that equal keys keep their original relative order. -/
def insertByKey {α : Type} (lt : α → α → Bool) (x : α) : List α → List α
  | [] => [x]
  | y :: ys => if lt y x then y :: insertByKey lt x ys else x :: y :: ys

/-- Stable sort by key, modelling `slice::sort_by_key` (a stable sort; any
two stable sorts agree). -/
def sortByKey {α : Type} (lt : α → α → Bool) : List α → List α
  | [] => []
  | x :: xs => insertByKey lt x (sortByKey lt xs)

/-- The candidate `RECURRENCE-ID` of a generated instant
(`src/parser/ical/component/event/mod.rs` lines 189-193): a UTC calendar
date when the main `DTSTART` is date-only, else the UTC date-time. -/
def candidateRecurid (mainIsDate : Bool) (instant : Int) :
    CalDateOrDateTime :=
  if mainIsDate then .date ⟨Int.ediv instant 86400, Timezone.utc⟩
  else .dateTime ⟨instant, Timezone.utc⟩

/-- The synthesized instance of the `expand_recurrence` loop
(`src/parser/ical/component/event/mod.rs` lines 212-242): copy the current
template, drop the recurrence properties and `DTEND`, set `DTSTART` and
`RECURRENCE-ID` (range `This`) to the instant, derive `DTEND` by re-adding
the template's duration, clear alarms and recurrence data, and rewrite the
`DTSTART`, `RECURRENCE-ID` and (when a duration exists) `DURATION` content
lines. -/
def synthesize {R : Type} (db : TzDb) (template : IcalEvent R)
    (recurid : CalDateOrDateTime) : IcalEvent R :=
  let properties := (template.properties.filter (fun p =>
    ¬ (p.name = str "RRULE" ∨ p.name = str "RDATE" ∨
       p.name = str "EXRULE" ∨ p.name = str "EXDATE"))).filter (fun p =>
    ¬ p.name = str "DTEND")
  let ev : IcalEvent R :=
    { uid := template.uid
      dtstamp := template.dtstamp
      summary := template.summary
      dtstart := (recurid, [])
      recurid := some (recurid, .this)
      dtend := template.get_duration.map (fun duration =>
        (.dateTime ⟨(recurid.toCalDateTime db).instant + duration,
            (recurid.toCalDateTime db).tz⟩, []))
      alarms := []
      duration := none
      rdates := []
      rrules := []
      exdates := []
      exrules := []
      properties := properties }
  let p1 := replaceOrPush ev.properties (str "DTSTART")
    (dtstartToContentLine db (recurid, []))
  let ev1 := { ev with properties := p1 }
  let p2 := replaceOrPush ev1.properties (str "RECURRENCE-ID")
    (recuridToContentLine db (recurid, .this))
  let ev2 := { ev1 with properties := p2 }
  match template.get_duration with
  | some duration =>
    let p3 := replaceOrPush ev2.properties (str "DURATION")
      (durationToContentLine (duration, []))
    { ev2 with properties := p3 }
  | none => ev2

/-- The per-instant loop of `expand_recurrence`
(`src/parser/ical/component/event/mod.rs` lines 187-243): for each
generated instant, emit the first override (in sorted order) whose
`RECURRENCE-ID` equals the candidate — a `ThisAndFuture` override becoming
the template for the rest of the walk — and otherwise synthesize an
instance from the current template. -/
def expandLoop {R : Type} (db : TzDb) (mainIsDate : Bool)
    (overrides : List (IcalEvent R)) :
    IcalEvent R → List Int → List (IcalEvent R)
  | _, [] => []
  | template, inst :: rest =>
    let recurid := candidateRecurid mainIsDate inst
    match overrides.find? (fun o => (recuridKey o).eqb recurid) with
    | some over =>
      let template' :=
        if recuridRange over = .thisAndFuture then over else template
      over :: expandLoop db mainIsDate overrides template' rest
    | none =>
      synthesize db template recurid ::
        expandLoop db mainIsDate overrides template rest

/-- Model of `IcalEvent::expand_recurrence`
(`src/parser/ical/component/event/mod.rs` lines 161-246).  `all` is the
date iterator of the external `rrule` crate: `all rs limit` is
`rs.all(limit).dates` for the assembled recurrence set `rs` (the crate
yields the instants in ascending order and at most `limit` of them). -/
def IcalEvent.expand_recurrence {R : Type} (db : TzDb)
    (all : RRuleSetM R → Nat → List Int) (self : IcalEvent R)
    (startW endW : Option Int) (overrides0 : List (IcalEvent R)) :
    List (IcalEvent R) :=
  let main := self.to_utc_or_local db
  let overrides := sortByKey
    (fun a b => (recuridKey a).cmp db (recuridKey b) = .lt)
    (overrides0.map (IcalEvent.to_utc_or_local db))
  let dtstartUtc := main.dtstart.1.utc
  match main.get_rruleset db dtstartUtc with
  | none => main :: overrides
  | some rs0 =>
    let rs1 :=
      match startW with
      | some s => { rs0 with afterW := some s }
      | none => rs0
    let rs2 :=
      match endW with
      | some e => { rs1 with beforeW := some e }
      | none => rs1
    expandLoop db main.dtstart.1.is_date overrides main (all rs2 2048)

/-- A minimal event record used to instantiate theorems: the given UID,
rules and `RECURRENCE-ID`, epoch timestamps, and everything else empty. -/
def plainEvent (uid : Str) (rules : List Unit)
    (rid : Option (CalDateOrDateTime × RecurIdRange)) : IcalEvent Unit :=
  { uid := uid
    dtstamp := (⟨0, .local⟩, [])
    dtstart := (.dateTime ⟨0, .olson (str "UTC")⟩, [])
    dtend := none
    duration := none
    rdates := []
    rrules := rules
    exdates := []
    exrules := []
    recurid := rid
    summary := none
    properties := []
    alarms := [] }

/-- Claim C2 (code bug): assembling a calendar object from a flat set of
event instances `panic!`s on each of the three grouping violations —
differing UIDs, more than one instance carrying recurrence data, an
override without a `RECURRENCE-ID` — instead of returning the
`ParserError::DifferingUIDs`, `MultipleMainObjects` and `MissingRecurId`
error results that `src/parser/mod.rs` declares for exactly these cases. -/
theorem from_events_panics_instead_of_erroring :
    fromEvents [plainEvent (str "a") [] none, plainEvent (str "b") [] none] =
      .panic (str "Differing UIDs") ∧
    fromEvents
        [plainEvent (str "a") [()] none, plainEvent (str "a") [()] none] =
      .panic (str "Multiple main events not allowed") ∧
    fromEvents
        [plainEvent (str "a") [()] none, plainEvent (str "a") [] none] =
      .panic (str "Event overrides MUST have a RECURRENCE-ID") := by
  decide

/-- The expansion loop emits exactly one instance per generated instant. -/
theorem expandLoop_length {R : Type} (db : TzDb) (misd : Bool)
    (overs : List (IcalEvent R)) :
    ∀ (dates : List Int) (template : IcalEvent R),
      (expandLoop db misd overs template dates).length = dates.length := by
  intro dates
  induction dates with
  | nil => intro template; rfl
  | cons inst rest ih =>
    intro template
    unfold expandLoop
    dsimp only
    cases h : overs.find? (fun o =>
        (recuridKey o).eqb (candidateRecurid misd inst)) with
    | some over => simp [ih]
    | none => simp [ih]

/-- Claim C8: `expand_recurrence` with a non-empty recurrence bundle emits
at most 2048 instances — the literal cap passed to `rrule_set.all(2048)` —
no matter how many occurrences the rules describe.  (`all` is the external
`rrule` iterator; its documented contract is to yield at most the given
limit, the hypothesis `hall`.)  Termination is inherent: the model is a
total function, mirroring the source's iteration over the capped
finite list. -/
theorem expand_recurrence_is_capped_at_2048 {R : Type} (db : TzDb)
    (all : RRuleSetM R → Nat → List Int) (self : IcalEvent R)
    (startW endW : Option Int) (overrides0 : List (IcalEvent R))
    (hall : ∀ rs : RRuleSetM R, (all rs 2048).length ≤ 2048)
    (hrule : (self.to_utc_or_local db).has_rruleset = true) :
    (IcalEvent.expand_recurrence db all self startW endW
      overrides0).length ≤ 2048 := by
  unfold IcalEvent.expand_recurrence
  dsimp only
  rw [IcalEvent.get_rruleset, if_pos hrule]
  dsimp only
  rw [expandLoop_length]
  apply hall

/-- Witness for C8 at a concrete event with one recurrence rule and a
trivial date iterator. -/
theorem expand_recurrence_is_capped_at_2048_witness :
    (IcalEvent.expand_recurrence flatTzDb (fun _ _ => [0, 86400])
      (plainEvent (str "a") [()] none) none none []).length ≤ 2048 :=
  expand_recurrence_is_capped_at_2048 flatTzDb (fun _ _ => [0, 86400])
    (plainEvent (str "a") [()] none) none none []
    (fun _ => by simp) (by decide)

/-- The template in effect after consuming a prefix of the generated
instants: starts as the normalized main instance and becomes the latest
matched override whose range is `ThisAndFuture`. -/
def templateFold {R : Type} (misd : Bool) (overs : List (IcalEvent R))
    (t0 : IcalEvent R) (dates : List Int) : IcalEvent R :=
  dates.foldl (fun t inst =>
    match overs.find? (fun o =>
        (recuridKey o).eqb (candidateRecurid misd inst)) with
    | some over => if recuridRange over = .thisAndFuture then over else t
    | none => t) t0

/-- Pointwise characterization of the expansion loop: the j-th emitted
instance is the first override matching the j-th instant's candidate
`RECURRENCE-ID`, and otherwise an instance synthesized from the template in
effect, i.e. the latest earlier-matched `ThisAndFuture` override (or the
main instance). -/
theorem expandLoop_get? {R : Type} (db : TzDb) (misd : Bool)
    (overs : List (IcalEvent R)) :
    ∀ (dates : List Int) (template : IcalEvent R) (j : Nat),
      (expandLoop db misd overs template dates)[j]? =
        (dates[j]?).map (fun inst =>
          match overs.find? (fun o =>
              (recuridKey o).eqb (candidateRecurid misd inst)) with
          | some over => over
          | none =>
            synthesize db (templateFold misd overs template (dates.take j))
              (candidateRecurid misd inst)) := by
  intro dates
  induction dates with
  | nil => intro template j; rfl
  | cons inst rest ih =>
    intro template j
    unfold expandLoop
    dsimp only
    cases h : overs.find? (fun o =>
        (recuridKey o).eqb (candidateRecurid misd inst)) with
    | some over =>
      cases j with
      | zero => simp [h]
      | succ j' =>
        simp only [List.getElem?_cons_succ, List.take_succ_cons,
          templateFold, List.foldl_cons, h]
        rw [ih]
        rfl
    | none =>
      cases j with
      | zero => simp [h, templateFold]
      | succ j' =>
        simp only [List.getElem?_cons_succ, List.take_succ_cons,
          templateFold, List.foldl_cons, h]
        rw [ih]
        rfl

/-- Claim C3: during expansion with a recurrence set present, the j-th
emitted instance is exactly the first (in sorted order) normalized override
whose `RECURRENCE-ID` equals the j-th generated instant's candidate
`RECURRENCE-ID` — an override, not a synthesized instance — and when no
override matches, the instance is synthesized from the template in effect,
which is the latest earlier-matched override with range `ThisAndFuture`
(its fields replace the main instance's from that point on) and otherwise
the main instance itself. -/
theorem expand_recurrence_override_precedence {R : Type} (db : TzDb)
    (all : RRuleSetM R → Nat → List Int) (self : IcalEvent R)
    (startW endW : Option Int) (overrides0 : List (IcalEvent R))
    (rs0 : RRuleSetM R) (j : Nat)
    (hro : ∀ o ∈ overrides0, o.recurid.isSome = true)
    (hrs : (self.to_utc_or_local db).get_rruleset db
      ((self.to_utc_or_local db).dtstart.1.utc) = some rs0) :
    (IcalEvent.expand_recurrence db all self startW endW overrides0)[j]? =
      (let main := self.to_utc_or_local db
       let overs := sortByKey
         (fun a b => (recuridKey a).cmp db (recuridKey b) = .lt)
         (overrides0.map (IcalEvent.to_utc_or_local db))
       let rs1 :=
         match startW with
         | some s => { rs0 with afterW := some s }
         | none => rs0
       let rs2 :=
         match endW with
         | some e => { rs1 with beforeW := some e }
         | none => rs1
       let dates := all rs2 2048
       (dates[j]?).map (fun inst =>
         match overs.find? (fun o =>
             (recuridKey o).eqb (candidateRecurid main.dtstart.1.is_date
               inst)) with
         | some over => over
         | none =>
           synthesize db
             (templateFold main.dtstart.1.is_date overs main (dates.take j))
             (candidateRecurid main.dtstart.1.is_date inst))) := by
  unfold IcalEvent.expand_recurrence
  dsimp only
  rw [hrs]
  dsimp only
  rw [expandLoop_get?]

/-- Witness for C3: one yearly-style rule generating the instants 0 and
86400, and one override whose `RECURRENCE-ID` equals the second instant;
the second emitted instance is exactly that (normalized) override. -/
theorem expand_recurrence_override_precedence_witness :
    (IcalEvent.expand_recurrence flatTzDb (fun _ _ => ([0, 86400] : List Int))
        (plainEvent (str "a") [()] none) none none
        [plainEvent (str "a") []
          (some (.dateTime ⟨86400, .olson (str "UTC")⟩, .this))])[1]? =
      some (IcalEvent.to_utc_or_local flatTzDb
        (plainEvent (str "a") []
          (some (.dateTime ⟨86400, .olson (str "UTC")⟩, .this)))) := by
  rw [expand_recurrence_override_precedence flatTzDb
    (fun _ _ => ([0, 86400] : List Int)) (plainEvent (str "a") [()] none)
    none none
    [plainEvent (str "a") []
      (some (.dateTime ⟨86400, .olson (str "UTC")⟩, .this))]
    ⟨0, [()], [], [], [], none, none⟩ 1 (by decide) (by decide)]
  decide

/-! ## Date-only parsing (`src/types/date.rs`) -/

/-- Model of `NaiveDate::parse_from_str(value, "%Y%m%d")`
(`src/types/date.rs` line 9). -/
def parseLocalDate (s : Str) : Option Int :=
  if s.length = 8 ∧ allDigits s then
    let yn : Int := (digitsToNat (s.take 4) : Int)
    let mon := digitsToNat ((s.drop 4).take 2)
    let dn := digitsToNat (s.drop 6)
    if 1 ≤ mon ∧ mon ≤ 12 ∧ 1 ≤ dn ∧ dn ≤ daysInMonth yn mon then
      some (daysFromCivil yn mon dn)
    else none
  else none

/-- Model of `NaiveDate::parse_from_str(value, "%Y-%m-%d")`
(`src/types/date.rs` line 93). -/
def parseDashDate (s : Str) : Option Int :=
  if s.length = 10 ∧ (s.drop 4).take 1 = ['-'] ∧ (s.drop 7).take 1 = ['-']
  then
    parseLocalDate (s.take 4 ++ (s.drop 5).take 2 ++ s.drop 8)
  else none

/-- Model of `CalDate::parse` (`src/types/date.rs` lines 87-101): attach
the resolved-or-local timezone, then try `%Y%m%d`, `%Y-%m-%d`, and (as the
source does, redundantly) `%Y%m%d` again. -/
def CalDate.parse (value : Str) (timezone : Option Str) :
    Except CalDateTimeError CalDate :=
  let tz : Timezone :=
    match timezone with
    | none => .local
    | some id => .olson id
  match parseLocalDate value with
  | some d => .ok ⟨d, tz⟩
  | none =>
    match parseDashDate value with
    | some d => .ok ⟨d, tz⟩
    | none =>
      match parseLocalDate value with
      | some d => .ok ⟨d, tz⟩
      | none => .error (.invalidDatetimeFormat value)

/-- Model of `CalDate::parse_prop` (`src/types/date.rs` lines 42-66): the
same `TZID` table policy as `CalDateTime::parse_prop`. -/
def CalDate.parse_prop (prop : ContentLine) (timezones : TzTable) :
    Except CalDateTimeError CalDate :=
  match prop.value with
  | none => .error (.invalidDatetimeFormat (str "empty property"))
  | some v =>
    match prop.get_tzid with
    | some tzid =>
      match lookupTz timezones tzid with
      | some tzopt => CalDate.parse v tzopt
      | none => .error (.invalidTZID tzid)
    | none => CalDate.parse v none

/-! ## The event builder (`src/parser/ical/component/event/builder.rs`
with the property accessors of `src/parser/property/mod.rs`) -/

/-- Lift a `CalDateTimeError` result into the builder outcome
(the `?` operator with `From<CalDateTimeError> for ParserError`). -/
def liftDT {α : Type} : Except CalDateTimeError α → POut α
  | .ok a => .ok a
  | .error e => .err (.dateTime e)

/-- Model of `CalDateOrDateTime::parse_prop`
(`src/types/dateordatetime.rs` lines 20-32): dispatch on the `VALUE`
parameter (or the per-property default); any other value type `panic!`s. -/
def CalDateOrDateTime.parse_prop (db : TzDb) (prop : ContentLine)
    (timezones : TzTable) (defaultType : Str) : POut CalDateOrDateTime :=
  let vt := (prop.get_value_type).getD defaultType
  if vt = str "DATE" then
    liftDT ((CalDate.parse_prop prop timezones).map .date)
  else if vt = str "DATE-TIME" then
    liftDT ((CalDateTime.parse_prop db prop timezones).map .dateTime)
  else
    .panic (str "unsupported value type")

/-- Model of `ParseProp for String` (`src/parser/property/mod.rs` lines
92-100): the raw value, defaulting to the empty string; never fails. -/
def parseStringProp (prop : ContentLine) : POut Str :=
  .ok (prop.value.getD [])

/-- Model of `ParseProp for chrono::Duration`
(`src/parser/property/mod.rs` lines 122-130). -/
def parseDurationProp (prop : ContentLine) : POut Int :=
  match parseDuration (prop.value.getD []) with
  | .ok d => .ok d
  | .error s => .err (.invalidDuration s)

/-- Model of `ICalProperty::parse_prop` for `IcalRECURIDProperty`
(`src/parser/property/recurid.rs` lines 22-33): parse the value with
default type `DATE-TIME`, then read the `RANGE` parameter —
`THISANDFUTURE`, absent, or `panic!`. -/
def parseRecuridProp (db : TzDb) (timezones : TzTable)
    (prop : ContentLine) : POut (CalDateOrDateTime × RecurIdRange) :=
  (CalDateOrDateTime.parse_prop db prop timezones
    (str "DATE-TIME")).bind fun dt =>
  match prop.get_param (str "RANGE") with
  | some r =>
    if r = str "THISANDFUTURE" then .ok (dt, .thisAndFuture)
    else .panic (str "Invalid range parameter")
  | none => .ok (dt, .this)

/-- Model of `IcalRECURIDProperty::validate_dtstart`
(`src/parser/property/recurid.rs` lines 35-49): `assert_eq!` — a panic,
not an error — when the value types or the floating/zoned kinds differ. -/
def validateDtstart (rid : CalDateOrDateTime × RecurIdRange)
    (dtstart : CalDateOrDateTime) : POut Unit :=
  if rid.1.is_date ≠ dtstart.is_date then
    .panic (str "DTSTART and RECURRENCE-ID have different value types")
  else if rid.1.timezone.is_local ≠ dtstart.timezone.is_local then
    .panic (str "DTSTART and RECURRENCE-ID have different timezone types")
  else .ok ()

/-- Model of `Component::get_named_properties`: the properties with the
given name, in order (`src/parser/mod.rs` lines 90-92). -/
def namedProps (props : List ContentLine) (name : Str) : List ContentLine :=
  props.filter (fun p => p.name = name)

/-- Model of `GetProperty::safe_get_optional` (`src/parser/property/mod.rs`
lines 53-67): no occurrence is `None`; a second occurrence is a
`PropertyConflict` (before any parsing); otherwise parse the single
occurrence. -/
def safeGetOptional {τ : Type} (props : List ContentLine) (name : Str)
    (parse : ContentLine → POut τ) : POut (Option τ) :=
  match namedProps props name with
  | [] => .ok none
  | [p] => (parse p).bind (fun v => .ok (some v))
  | _ :: _ :: _ => .err (.propertyConflict
      (str "Multiple instances of property"))

/-- Model of `GetProperty::safe_get_required` (`src/parser/property/mod.rs`
lines 69-75). -/
def safeGetRequired {τ : Type} (props : List ContentLine) (name : Str)
    (parse : ContentLine → POut τ) : POut τ :=
  (safeGetOptional props name parse).bind fun v =>
    match v with
    | some v => .ok v
    | none => .err (.missingProperty name)

/-- Model of `GetProperty::safe_get_all` (`src/parser/property/mod.rs`
lines 43-51): parse every occurrence, failing fast. -/
def safeGetAll {τ : Type} (props : List ContentLine) (name : Str)
    (parse : ContentLine → POut τ) : POut (List τ) :=
  let rec go : List ContentLine → POut (List τ)
    | [] => .ok []
    | p :: rest =>
      (parse p).bind fun v => (go rest).bind fun vs => .ok (v :: vs)
  go (namedProps props name)

/-- Model of `GetProperty::has_prop` (`src/parser/property/mod.rs` lines
77-79). -/
def hasProp (props : List ContentLine) (name : Str) : Bool :=
  (props.find? (fun p => p.name = name)).isSome

/-- Model of `IcalEventBuilder` (`src/parser/ical/component/event/
builder.rs` lines 14-18). -/
structure IcalEventBuilder where
  properties : List ContentLine
  alarms : List IcalAlarm
deriving DecidableEq, Repr

/-- The event record constructed by `IcalEventBuilder::build`
(`src/parser/ical/component/event/builder.rs` lines 123-139), with the
validated rules of the external `rrule` crate as an opaque parameter
`R`. -/
structure BuiltEvent (R : Type) where
  uid : Str
  dtstart : CalDateOrDateTime
  dtend : Option CalDateOrDateTime
  duration : Option Int
  rdates : List CalDateOrDateTime
  rrules : List R
  exdates : List CalDateOrDateTime
  exrules : List R
  recurid : Option (CalDateOrDateTime × RecurIdRange)
  properties : List ContentLine
  alarms : List IcalAlarm
deriving DecidableEq, Repr

/-- Validation of a list of unvalidated rules against the anchor
(`rrule.0.validate(rrule_dtstart)` collected fail-fast); `validate` is the
external crate's validation, its error mapped to `ParserError::RRule`. -/
def validateRules {RU R : Type} (validate : RU → Int → Except Unit R)
    (anchor : Int) : List RU → POut (List R)
  | [] => .ok []
  | r :: rest =>
    match validate r anchor with
    | .error _ => .err .rruleError
    | .ok v =>
      (validateRules validate anchor rest).bind fun vs => .ok (v :: vs)

/-- Parsing one `RRULE`/`EXRULE` content line through the external crate's
`RRule::from_str` (`src/parser/property/mod.rs` lines 132-142), its error
mapped to `ParserError::RRule`. -/
def parseRRuleProp {RU : Type} (fromStr : Str → Except Unit RU)
    (prop : ContentLine) : POut RU :=
  match fromStr (prop.value.getD []) with
  | .ok r => .ok r
  | .error _ => .err .rruleError

/-- Model of `IcalEventBuilder::build`
(`src/parser/ical/component/event/builder.rs` lines 66-141): require
`DTSTAMP` and `UID`; `assert!` — a panic, not an error — that no `METHOD`
property exists; require `DTSTART`; validate an optional `RECURRENCE-ID`
against it; reject `DTEND` together with `DURATION`; then collect the
optional end/duration, the repeatable `RDATE`/`EXDATE` values and the
validated `RRULE`/`EXRULE` rules, and assemble the verified event (alarm
builders always build). -/
def buildEvent {RU R : Type} (db : TzDb)
    (fromStr : Str → Except Unit RU) (validate : RU → Int → Except Unit R)
    (timezones : TzTable) (b : IcalEventBuilder) : POut (BuiltEvent R) :=
  (safeGetRequired b.properties (str "DTSTAMP")
    (fun p => CalDateOrDateTime.parse_prop db p timezones
      (str "DATE-TIME"))).bind fun _dtstamp =>
  (safeGetRequired b.properties (str "UID") parseStringProp).bind fun uid =>
  (safeGetOptional b.properties (str "METHOD") parseStringProp).bind
    fun method =>
  if method.isSome then .panic (str "assertion failed: method.is_none()")
  else
  (safeGetRequired b.properties (str "DTSTART")
    (fun p => CalDateOrDateTime.parse_prop db p timezones
      (str "DATE-TIME"))).bind fun dtstart =>
  (safeGetOptional b.properties (str "RECURRENCE-ID")
    (parseRecuridProp db timezones)).bind fun recurid =>
  (match recurid with
   | some rid => validateDtstart rid dtstart
   | none => .ok ()).bind fun _ =>
  if hasProp b.properties (str "DTEND") ∧
      hasProp b.properties (str "DURATION") then
    .err (.propertyConflict (str "both DTEND and DURATION are defined"))
  else
  (safeGetOptional b.properties (str "DTEND")
    (fun p => CalDateOrDateTime.parse_prop db p timezones
      (str "DATE-TIME"))).bind fun dtend =>
  (safeGetOptional b.properties (str "DURATION")
    parseDurationProp).bind fun duration =>
  let rruleDtstart := dtstart.utc
  (safeGetAll b.properties (str "RDATE")
    (fun p => CalDateOrDateTime.parse_prop db p timezones
      (str "DATE-TIME"))).bind fun rdates =>
  (safeGetAll b.properties (str "EXDATE")
    (fun p => CalDateOrDateTime.parse_prop db p timezones
      (str "DATE-TIME"))).bind fun exdates =>
  (safeGetAll b.properties (str "RRULE")
    (parseRRuleProp fromStr)).bind fun rrulesU =>
  (validateRules validate rruleDtstart rrulesU).bind fun rrules =>
  (safeGetAll b.properties (str "EXRULE")
    (parseRRuleProp fromStr)).bind fun exrulesU =>
  (validateRules validate rruleDtstart exrulesU).bind fun exrules =>
  .ok
    { uid := uid
      dtstart := dtstart
      dtend := dtend
      duration := duration
      rdates := rdates
      rrules := rrules
      exdates := exdates
      exrules := exrules
      recurid := recurid
      properties := b.properties
      alarms := b.alarms }

/-- Counterexample to C1 of claim C9 as stated: a draft that contains a
`METHOD` property but no `DTSTAMP` makes `IcalEventBuilder::build` return
the `MissingProperty("DTSTAMP")` error result — the required-property
checks run before the `METHOD` assertion, so not every `METHOD`-carrying
draft panics. -/
theorem build_with_method_but_no_dtstamp_errors :
    @buildEvent Unit Unit flatTzDb (fun _ => .ok ())
      (fun _ _ => .ok ()) []
      ⟨[⟨str "METHOD", [], some (str "PUBLISH")⟩], []⟩ =
    .err (.missingProperty (str "DTSTAMP")) := by
  decide

/-- Claim C9 (amended): when the checks that precede the assertion succeed —
exactly one `DTSTAMP` property that parses, exactly one `UID` property, and
exactly one `METHOD` property — `IcalEventBuilder::build` fails its
`assert!` (a panic), rather than returning an error result; and in every
case an event builds successfully only when no `METHOD` property is
present. -/
theorem build_method_assertion_panics {RU R : Type} (db : TzDb)
    (fromStr : Str → Except Unit RU) (validate : RU → Int → Except Unit R)
    (tzs : TzTable) (b : IcalEventBuilder) (pds puid pm : ContentLine)
    (d : CalDateOrDateTime)
    (h1 : namedProps b.properties (str "DTSTAMP") = [pds])
    (h2 : CalDateOrDateTime.parse_prop db pds tzs (str "DATE-TIME") = .ok d)
    (h3 : namedProps b.properties (str "UID") = [puid])
    (h4 : namedProps b.properties (str "METHOD") = [pm]) :
    @buildEvent RU R db fromStr validate tzs b =
      .panic (str "assertion failed: method.is_none()") ∧
    ∀ (b' : IcalEventBuilder) (ev : BuiltEvent R),
      buildEvent db fromStr validate tzs b' = .ok ev →
      namedProps b'.properties (str "METHOD") = [] := by
  constructor
  · unfold buildEvent safeGetRequired safeGetOptional
    rw [h1, h3, h4]
    simp [POut.bind, h2, parseStringProp]
  · intro b' ev h
    cases hM : namedProps b'.properties (str "METHOD") with
    | nil => rfl
    | cons p rest =>
      exfalso
      unfold buildEvent at h
      cases hds : safeGetRequired b'.properties (str "DTSTAMP")
          (fun p => CalDateOrDateTime.parse_prop db p tzs
            (str "DATE-TIME")) with
      | err e => rw [hds] at h; simp [POut.bind] at h
      | panic m => rw [hds] at h; simp [POut.bind] at h
      | ok d1 =>
        rw [hds] at h
        simp only [POut.bind] at h
        cases huid : safeGetRequired b'.properties (str "UID")
            parseStringProp with
        | err e => rw [huid] at h; simp [POut.bind] at h
        | panic m => rw [huid] at h; simp [POut.bind] at h
        | ok u =>
          rw [huid] at h
          simp only [POut.bind] at h
          unfold safeGetOptional at h
          rw [hM] at h
          cases rest with
          | nil =>
            simp [POut.bind, parseStringProp] at h
          | cons q qs =>
            simp [POut.bind] at h

/-- Witness for the amended C9 at a concrete draft with one valid
`DTSTAMP`, one `UID` and one `METHOD` property: `build` panics. -/
theorem build_method_assertion_panics_witness :
    @buildEvent Unit Unit flatTzDb (fun _ => .ok ())
      (fun _ _ => .ok ()) []
      ⟨[⟨str "DTSTAMP", [], some (str "20201206T170000Z")⟩,
        ⟨str "UID", [], some (str "u")⟩,
        ⟨str "METHOD", [], some (str "PUBLISH")⟩], []⟩ =
    .panic (str "assertion failed: method.is_none()") :=
  (build_method_assertion_panics flatTzDb (fun _ => .ok ())
    (fun _ _ => .ok ()) []
    ⟨[⟨str "DTSTAMP", [], some (str "20201206T170000Z")⟩,
      ⟨str "UID", [], some (str "u")⟩,
      ⟨str "METHOD", [], some (str "PUBLISH")⟩], []⟩
    ⟨str "DTSTAMP", [], some (str "20201206T170000Z")⟩
    ⟨str "UID", [], some (str "u")⟩
    ⟨str "METHOD", [], some (str "PUBLISH")⟩
    (.dateTime ⟨1607274000, .olson (str "UTC")⟩)
    (by decide) (by decide) (by decide) (by decide)).1

/-! ## Characterization of the folding (`split_line`) output -/

theorem intercalate_cons_of_ne {α : Type} (s a : List α)
    (rest : List (List α)) (h : rest ≠ []) :
    List.intercalate s (a :: rest) = a ++ s ++ List.intercalate s rest := by
  simp [List.intercalate, List.intersperse]

theorem intercalate_singleton {α : Type} (s a : List α) :
    List.intercalate s [a] = a := by
  simp [List.intercalate]

/-- Folding a line of at most 75 characters is the identity. -/
theorem splitLine_short (s : Str) (h : s.length ≤ 75) : splitLine s = s := by
  cases s with
  | nil => rfl
  | cons c cs =>
    unfold splitLine splitLineChunks
    dsimp only
    rw [List.take_of_length_le h, List.drop_of_length_le h]
    show List.intercalate crlfSp [c :: cs] = c :: cs
    exact intercalate_singleton _ _

/-- The continuation chunks of a CR/LF-free text followed by CRLF:
chunks of 74, a final short chunk carrying the CRLF, with the break
straddling the chunk boundary when 73 characters remain. -/
def foldChunksTail (t : Str) : List Str :=
  if t.length ≤ 72 then [t ++ crlf]
  else if t.length = 73 then [t ++ ['\r'], ['\n']]
  else t.take 74 :: foldChunksTail (t.drop 74)
termination_by t.length
decreasing_by simp [List.length_drop]; omega

theorem foldChunksTail_ne_nil (t : Str) : foldChunksTail t ≠ [] := by
  unfold foldChunksTail
  split
  · simp
  · split <;> simp

theorem chunksAfterFirst_crlf :
    ∀ (t : Str), '\r' ∉ t → '\n' ∉ t →
      chunksAfterFirst (t ++ crlf) = foldChunksTail t := by
  intro t
  induction t using foldChunksTail.induct with
  | case1 t hle =>
    intro hr hn
    rw [foldChunksTail, if_pos hle]
    have hlen : (t ++ crlf).length = t.length + 2 := by
      simp [crlf]
    cases hc : t ++ crlf with
    | nil => simp [crlf] at hc
    | cons c cs =>
      rw [chunksAfterFirst_cons c cs, ← hc]
      rw [List.take_of_length_le (by omega),
        List.drop_of_length_le (by omega)]
      rfl
  | case2 t hgt heq =>
    intro hr hn
    rw [foldChunksTail, if_neg hgt, if_pos heq]
    have hlen : (t ++ crlf).length = 75 := by simp [crlf]; omega
    cases hc : t ++ crlf with
    | nil => simp [crlf] at hc
    | cons c cs =>
      rw [chunksAfterFirst_cons c cs, ← hc]
      have ht74 : (t ++ crlf).take 74 = t ++ ['\r'] := by
        have : (74 : Nat) = t.length + 1 := by omega
        rw [this, List.take_append]
        simp [crlf]
      have hd74 : (t ++ crlf).drop 74 = ['\n'] := by
        have : (74 : Nat) = t.length + 1 := by omega
        rw [this, List.drop_append]
        simp [crlf]
      rw [ht74, hd74]
      rw [show chunksAfterFirst ['\n'] = [['\n']] from rfl]
  | case3 t hgt hne ih =>
    intro hr hn
    rw [foldChunksTail, if_neg hgt, if_neg hne]
    have h74 : 74 ≤ t.length := by omega
    cases hc : t ++ crlf with
    | nil => simp [crlf] at hc
    | cons c cs =>
      rw [chunksAfterFirst_cons c cs, ← hc]
      rw [List.take_append_of_le_length h74,
        List.drop_append_of_le_length h74]
      rw [ih (fun hx => hr (List.mem_of_mem_drop hx))
        (fun hx => hn (List.mem_of_mem_drop hx))]

/-- The full chunk sequence of a CR/LF-free text followed by CRLF. -/
theorem splitLineChunks_crlf (raw : Str) (hr : '\r' ∉ raw)
    (hn : '\n' ∉ raw) :
    splitLineChunks (raw ++ crlf) =
      if raw.length ≤ 73 then [raw ++ crlf]
      else if raw.length = 74 then [raw ++ ['\r'], ['\n']]
      else raw.take 75 :: foldChunksTail (raw.drop 75) := by
  have hlen : (raw ++ crlf).length = raw.length + 2 := by simp [crlf]
  cases hc : raw ++ crlf with
  | nil => simp [crlf] at hc
  | cons c cs =>
    unfold splitLineChunks
    dsimp only
    rw [← hc]
    by_cases h73 : raw.length ≤ 73
    · rw [if_pos h73]
      rw [List.take_of_length_le (by omega),
        List.drop_of_length_le (by omega)]
      rfl
    · rw [if_neg h73]
      by_cases h74 : raw.length = 74
      · rw [if_pos h74]
        have ht75 : (raw ++ crlf).take 75 = raw ++ ['\r'] := by
          have : (75 : Nat) = raw.length + 1 := by omega
          rw [this, List.take_append]
          simp [crlf]
        have hd75 : (raw ++ crlf).drop 75 = ['\n'] := by
          have : (75 : Nat) = raw.length + 1 := by omega
          rw [this, List.drop_append]
          simp [crlf]
        rw [ht75, hd75]
        rw [show chunksAfterFirst ['\n'] = [['\n']] from rfl]
      · rw [if_neg h74]
        have h75 : 75 ≤ raw.length := by omega
        rw [List.take_append_of_le_length (by omega),
          List.drop_append_of_le_length (by omega)]
        rw [chunksAfterFirst_crlf (raw.drop 75)
          (fun hx => hr (List.mem_of_mem_drop hx))
          (fun hx => hn (List.mem_of_mem_drop hx))]

/-- The space-marked physical pieces contributed by the continuation chunks
of one folded logical line. -/
def contMarkedPieces (t : Str) : List Str :=
  if t.length ≤ 72 then [' ' :: t]
  else if t.length = 73 then [(' ' :: t) ++ ['\r']]
  else (' ' :: t.take 74) :: contMarkedPieces (t.drop 74)
termination_by t.length
decreasing_by simp [List.length_drop]; omega

/-- The physical pieces of one folded logical line `raw ++ CRLF` (each
followed in the output by a CRLF break): the first piece carries no space
marker, every further piece does; when the appended line break straddles a
chunk boundary the piece before it keeps the stray `'\r'`. -/
def foldedPieces (raw : Str) : List Str :=
  if raw.length ≤ 73 then [raw]
  else if raw.length = 74 then [raw ++ ['\r']]
  else raw.take 75 :: contMarkedPieces (raw.drop 75)

/-- Whether the appended CRLF of a folded logical line straddles a chunk
boundary: exactly when the line length is a positive multiple of 74. -/
def hasStraddle (raw : Str) : Bool :=
  74 ≤ raw.length ∧ raw.length % 74 = 0

/-- The trailing characters of a folded logical line after the last
CRLF break: empty normally, a lone space-prefixed `'\n'` in the straddle
case. -/
def foldedTail (raw : Str) : Str :=
  if hasStraddle raw then [' ', '\n'] else []

theorem intercalate_foldChunksTail (t : Str) :
    crlfSp ++ List.intercalate crlfSp (foldChunksTail t) =
      crlf ++ ((contMarkedPieces t).map (fun p => p ++ crlf)).flatten ++
        (if t.length % 74 = 73 then [' ', '\n'] else []) := by
  induction t using foldChunksTail.induct with
  | case1 t hle =>
    rw [foldChunksTail, if_pos hle, contMarkedPieces, if_pos hle]
    rw [intercalate_singleton]
    rw [if_neg (by omega)]
    simp [crlfSp, crlf]
  | case2 t hgt heq =>
    rw [foldChunksTail, if_neg hgt, if_pos heq,
      contMarkedPieces, if_neg hgt, if_pos heq]
    rw [intercalate_cons_of_ne _ _ _ (by simp), intercalate_singleton]
    rw [if_pos (by omega)]
    simp [crlfSp, crlf]
  | case3 t hgt hne ih =>
    rw [foldChunksTail, if_neg hgt, if_neg hne,
      contMarkedPieces, if_neg hgt, if_neg hne]
    rw [intercalate_cons_of_ne _ _ _ (foldChunksTail_ne_nil _)]
    have hmod : (t.drop 74).length % 74 = 73 ↔ t.length % 74 = 73 := by
      simp only [List.length_drop]
      omega
    rw [show crlfSp ++ (t.take 74 ++ crlfSp ++
        List.intercalate crlfSp (foldChunksTail (t.drop 74))) =
      (crlfSp ++ t.take 74) ++ (crlfSp ++
        List.intercalate crlfSp (foldChunksTail (t.drop 74))) by simp]
    rw [ih]
    by_cases hm : t.length % 74 = 73
    · rw [if_pos hm, if_pos (hmod.mpr hm)]
      simp [crlfSp, crlf]
    · rw [if_neg hm, if_neg (fun hx => hm (hmod.mp hx))]
      simp [crlfSp, crlf]

/-- Normal form of one folded logical line: CRLF-terminated physical
pieces followed by the straddle tail. -/
theorem splitLine_crlf (raw : Str) (hr : '\r' ∉ raw) (hn : '\n' ∉ raw) :
    splitLine (raw ++ crlf) =
      ((foldedPieces raw).map (fun p => p ++ crlf)).flatten ++
        foldedTail raw := by
  unfold splitLine
  rw [splitLineChunks_crlf raw hr hn]
  unfold foldedPieces foldedTail hasStraddle
  by_cases h73 : raw.length ≤ 73
  · rw [if_pos h73, if_pos h73, intercalate_singleton]
    rw [if_neg (by simp; omega)]
    simp
  · rw [if_neg h73, if_neg h73]
    by_cases h74 : raw.length = 74
    · rw [if_pos h74, if_pos h74]
      rw [intercalate_cons_of_ne _ _ _ (by simp), intercalate_singleton]
      rw [if_pos (by simp; omega)]
      simp [crlfSp, crlf]
    · rw [if_neg h74, if_neg h74]
      rw [intercalate_cons_of_ne _ _ _ (foldChunksTail_ne_nil _)]
      have : raw.take 75 ++ crlfSp ++
          List.intercalate crlfSp (foldChunksTail (raw.drop 75)) =
        raw.take 75 ++ (crlfSp ++
          List.intercalate crlfSp (foldChunksTail (raw.drop 75))) := by
        simp
      rw [this, intercalate_foldChunksTail]
      have hmod : ((raw.drop 75).length % 74 = 73) ↔
          (74 ≤ raw.length ∧ raw.length % 74 = 0) := by
        simp only [List.length_drop]
        omega
      by_cases hm : (raw.drop 75).length % 74 = 73
      · rw [if_pos hm, if_pos (by simp [hmod.mp hm])]
        simp [crlf]
      · rw [if_neg hm]
        rw [if_neg (by simp; intro h1 h2; exact hm (hmod.mpr ⟨h1, h2⟩))]
        simp [crlf]

/-- The UTF-8 length in octets of a character sequence, as the Rust `str`
the generator emits would measure it with `len()`. -/
def utf8Len (s : Str) : Nat := (s.map Char.utf8Size).sum

/-- The rendered logical line of a content line before folding:
`NAME[;PARAMS]:VALUE`, as built by `Property::generate`
(`src/generator/ical.rs` lines 153-167) before the final `"\r\n"`. -/
def renderContentLine (p : ContentLine) : Str :=
  let ps := getParams p.params
  p.name ++ (if ps = [] then [] else PARAM_DELIMITER :: ps) ++
    [VALUE_DELIMITER] ++ p.value.getD []

theorem generate_eq_splitLine (p : ContentLine) :
    p.generate = splitLine (renderContentLine p ++ crlf) := rfl

/-- Physical lines of an octet stream: the segments between `"\r\n"`
occurrences (a reader's view of the wire format; a lone `'\r'` or `'\n'`
does not break a line here). -/
def splitCRLF : Str → List Str
  | [] => [[]]
  | [c] => [[c]]
  | c1 :: c2 :: t =>
    if c1 = '\r' ∧ c2 = '\n' then [] :: splitCRLF t
    else
      match splitCRLF (c2 :: t) with
      | [] => [[c1]]
      | l :: ls => (c1 :: l) :: ls

theorem splitCRLF_cons_crlf (t : Str) :
    splitCRLF ('\r' :: '\n' :: t) = [] :: splitCRLF t := by
  simp [splitCRLF]

theorem splitCRLF_append_crlf (c : Str) (h : '\n' ∉ c) (t : Str) :
    splitCRLF (c ++ '\r' :: '\n' :: t) = c :: splitCRLF t := by
  induction c with
  | nil => simpa using splitCRLF_cons_crlf t
  | cons a c' ih =>
    have hn : '\n' ∉ c' := fun hx => h (List.mem_cons_of_mem a hx)
    have ha : a ≠ '\n' := fun hx => h (hx ▸ List.mem_cons_self a c')
    cases c' with
    | nil =>
      rw [show ([a] ++ '\r' :: '\n' :: t) = a :: '\r' :: ('\n' :: t) from
        rfl]
      rw [splitCRLF]
      rw [if_neg (by simp)]
      rw [show ('\r' :: '\n' :: t) = [] ++ '\r' :: '\n' :: t from rfl,
        ih hn]
    | cons b c'' =>
      have hb : b ≠ '\n' := fun hx =>
        hn (hx ▸ List.mem_cons_self b c'')
      rw [show ((a :: b :: c'') ++ '\r' :: '\n' :: t) =
        a :: b :: (c'' ++ '\r' :: '\n' :: t) from rfl]
      rw [splitCRLF]
      rw [if_neg (by simp [hb])]
      rw [show (b :: (c'' ++ '\r' :: '\n' :: t)) =
        (b :: c'') ++ '\r' :: '\n' :: t from rfl, ih hn]

theorem splitCRLF_pieces (pieces : List Str)
    (h : ∀ c ∈ pieces, '\n' ∉ c) (t : Str) :
    splitCRLF ((pieces.map (fun c => c ++ crlf)).flatten ++ t) =
      pieces ++ splitCRLF t := by
  induction pieces with
  | nil => simp
  | cons c cs ih =>
    have hc : '\n' ∉ c := h c (List.mem_cons_self c cs)
    have hcs : ∀ x ∈ cs, '\n' ∉ x := fun x hx =>
      h x (List.mem_cons_of_mem c hx)
    simp only [List.map_cons, List.flatten_cons, List.append_assoc]
    rw [show crlf ++ ((cs.map (fun c => c ++ crlf)).flatten ++ t) =
      '\r' :: '\n' :: ((cs.map (fun c => c ++ crlf)).flatten ++ t) from
      rfl]
    rw [splitCRLF_append_crlf c hc, ih hcs]
    rfl

/-- The physical lines of the rendering of one CR/LF-free logical line:
the folded pieces followed by the trailing fragment (past the last CRLF). -/
theorem splitCRLF_splitLine (raw : Str) (hr : '\r' ∉ raw)
    (hn : '\n' ∉ raw) :
    splitCRLF (splitLine (raw ++ crlf)) =
      foldedPieces raw ++ [foldedTail raw] := by
  rw [splitLine_crlf raw hr hn]
  have hp : ∀ c ∈ foldedPieces raw, '\n' ∉ c := by
    intro c hc hmem
    unfold foldedPieces at hc
    by_cases h73 : raw.length ≤ 73
    · rw [if_pos h73] at hc
      simp only [List.mem_singleton] at hc
      exact hn (hc ▸ hmem)
    · rw [if_neg h73] at hc
      by_cases h74 : raw.length = 74
      · rw [if_pos h74] at hc
        simp only [List.mem_singleton] at hc
        subst hc
        rcases List.mem_append.mp hmem with h | h
        · exact hn h
        · simp at h
      · rw [if_neg h74] at hc
        rcases List.mem_cons.mp hc with h | h
        · exact hn (List.mem_of_mem_take (h ▸ hmem))
        · clear hc
          have : ∀ t, '\n' ∉ t → ∀ c ∈ contMarkedPieces t, '\n' ∉ c := by
            intro t
            induction t using contMarkedPieces.induct with
            | case1 t hle =>
              intro htn c hc hmem
              rw [contMarkedPieces, if_pos hle] at hc
              simp only [List.mem_singleton] at hc
              subst hc
              rcases List.mem_cons.mp hmem with h | h
              · simp at h
              · exact htn h
            | case2 t hgt heq =>
              intro htn c hc hmem
              rw [contMarkedPieces, if_neg hgt, if_pos heq] at hc
              simp only [List.mem_singleton] at hc
              subst hc
              rcases List.mem_append.mp hmem with h | h
              · rcases List.mem_cons.mp h with h | h
                · simp at h
                · exact htn h
              · simp at h
            | case3 t hgt hne ihc =>
              intro htn c hc hmem
              rw [contMarkedPieces, if_neg hgt, if_neg hne] at hc
              rcases List.mem_cons.mp hc with h | h
              · subst h
                rcases List.mem_cons.mp hmem with h | h
                · simp at h
                · exact htn (List.mem_of_mem_take h)
              · exact ihc (fun hx => htn (List.mem_of_mem_drop hx)) c h
                  hmem
          exact this (raw.drop 75)
            (fun hx => hn (List.mem_of_mem_drop hx)) c h hmem
  rw [splitCRLF_pieces (foldedPieces raw) hp (foldedTail raw)]
  unfold foldedTail
  by_cases hs : hasStraddle raw
  · rw [if_pos hs]
    rfl
  · rw [if_neg hs]
    rfl

theorem contMarkedPieces_bounds :
    ∀ t c, c ∈ contMarkedPieces t → c.length ≤ 75 ∧ c.head? = some ' ' := by
  intro t
  induction t using contMarkedPieces.induct with
  | case1 t hle =>
    intro c hc
    rw [contMarkedPieces, if_pos hle] at hc
    simp only [List.mem_singleton] at hc
    subst hc
    exact ⟨by simp; omega, rfl⟩
  | case2 t hgt heq =>
    intro c hc
    rw [contMarkedPieces, if_neg hgt, if_pos heq] at hc
    simp only [List.mem_singleton] at hc
    subst hc
    exact ⟨by simp; omega, rfl⟩
  | case3 t hgt hne ih =>
    intro c hc
    rw [contMarkedPieces, if_neg hgt, if_neg hne] at hc
    rcases List.mem_cons.mp hc with h | h
    · subst h
      refine ⟨?_, rfl⟩
      simp only [List.length_cons, List.length_take]
      omega
    · exact ih c h

theorem foldedPieces_bound (raw : Str) :
    ∀ c ∈ foldedPieces raw, c.length ≤ 75 := by
  intro c hc
  unfold foldedPieces at hc
  by_cases h73 : raw.length ≤ 73
  · rw [if_pos h73] at hc
    simp only [List.mem_singleton] at hc
    subst hc
    omega
  · rw [if_neg h73] at hc
    by_cases h74 : raw.length = 74
    · rw [if_pos h74] at hc
      simp only [List.mem_singleton] at hc
      subst hc
      simp [h74]
    · rw [if_neg h74] at hc
      rcases List.mem_cons.mp hc with h | h
      · subst h
        simp only [List.length_take]
        omega
      · exact (contMarkedPieces_bounds (raw.drop 75) c h).1

theorem foldedPieces_tail (raw : Str) :
    ∀ c ∈ (foldedPieces raw).tail, c.head? = some ' ' := by
  intro c hc
  unfold foldedPieces at hc
  by_cases h73 : raw.length ≤ 73
  · rw [if_pos h73] at hc
    simp at hc
  · rw [if_neg h73] at hc
    by_cases h74 : raw.length = 74
    · rw [if_pos h74] at hc
      simp at hc
    · rw [if_neg h74] at hc
      simp only [List.tail_cons] at hc
      exact (contMarkedPieces_bounds (raw.drop 75) c hc).2

/-- The tail chunks lose nothing: flattening them returns the input. -/
theorem chunksAfterFirst_flatten (s : Str) :
    (chunksAfterFirst s).flatten = s := by
  suffices h : ∀ n s, List.length s = n →
      (chunksAfterFirst s).flatten = s from h s.length s rfl
  intro n
  induction n using Nat.strong_induction_on with
  | _ n ih =>
    intro s hl
    cases s with
    | nil => rfl
    | cons c cs =>
      rw [chunksAfterFirst_cons, List.flatten_cons]
      rw [ih ((c :: cs).drop 74).length (by
        simp only [List.length_drop, List.length_cons] at *
        omega) _ rfl]
      exact List.take_append_drop 74 (c :: cs)

/-- `split_line` chunks lose nothing: every break lies between two
characters of the input, never inside one, and flattening the chunks
returns the rendered line unchanged. -/
theorem splitLineChunks_flatten (s : Str) :
    (splitLineChunks s).flatten = s := by
  cases s with
  | nil => rfl
  | cons c cs =>
    show ((c :: cs).take 75 :: chunksAfterFirst ((c :: cs).drop 75)).flatten
      = c :: cs
    rw [List.flatten_cons, chunksAfterFirst_flatten]
    exact List.take_append_drop 75 (c :: cs)

theorem foldedPieces_ne_nil (raw : Str) : foldedPieces raw ≠ [] := by
  unfold foldedPieces
  by_cases h73 : raw.length ≤ 73
  · rw [if_pos h73]
    simp
  · rw [if_neg h73]
    by_cases h74 : raw.length = 74
    · rw [if_pos h74]
      simp
    · rw [if_neg h74]
      simp

/-- C4, counterexample to the 75-octet bound: `split_line` counts
characters, not octets, so a property whose value is 80 copies of the
two-octet character `'Ä'` is folded into a first physical line of 75
characters occupying 148 octets. -/
theorem split_line_counts_chars_not_octets :
    ∃ line ∈ splitCRLF (ContentLine.generate
      ⟨str "X", [], some (List.replicate 80 'Ä')⟩), 75 < utf8Len line := by
  decide

/-- C4 (amended): the generator renders a content line as
`NAME[;PARAM=VAL[,VAL...]]*:VALUE` followed by CRLF and folds the result so
that, as long as the rendered line itself contains no CR or LF, no physical
output line exceeds 75 *characters* (not octets), each physical line after
the first is empty or starts with one space, and every fold boundary lies
between two characters of the rendered line — flattening the chunks
reproduces it — so no split falls inside a (multi-byte) character. -/
theorem generate_folds_within_75_chars (p : ContentLine)
    (hr : '\r' ∉ renderContentLine p) (hn : '\n' ∉ renderContentLine p) :
    (∀ line ∈ splitCRLF p.generate, line.length ≤ 75) ∧
    (∀ line ∈ (splitCRLF p.generate).tail,
      line = [] ∨ line.head? = some ' ') ∧
    (splitLineChunks (renderContentLine p ++ crlf)).flatten =
      renderContentLine p ++ crlf := by
  have hsplit : splitCRLF p.generate =
      foldedPieces (renderContentLine p) ++
        [foldedTail (renderContentLine p)] := by
    rw [generate_eq_splitLine]
    exact splitCRLF_splitLine (renderContentLine p) hr hn
  refine ⟨?_, ?_, splitLineChunks_flatten _⟩
  · intro line hline
    rw [hsplit] at hline
    rcases List.mem_append.mp hline with h | h
    · exact foldedPieces_bound (renderContentLine p) line h
    · simp only [List.mem_singleton] at h
      subst h
      unfold foldedTail
      by_cases hs : hasStraddle (renderContentLine p)
      · rw [if_pos hs]
        simp
      · rw [if_neg hs]
        simp
  · intro line hline
    rw [hsplit] at hline
    cases hfp : foldedPieces (renderContentLine p) with
    | nil => exact absurd hfp (foldedPieces_ne_nil _)
    | cons p0 ps =>
      rw [hfp] at hline
      simp only [List.cons_append, List.tail_cons] at hline
      rcases List.mem_append.mp hline with h | h
      · right
        exact foldedPieces_tail (renderContentLine p) line
          (by rw [hfp]; exact h)
      · simp only [List.mem_singleton] at h
        subst h
        unfold foldedTail
        by_cases hs : hasStraddle (renderContentLine p)
        · rw [if_pos hs]
          right
          rfl
        · rw [if_neg hs]
          left
          rfl

theorem generate_folds_within_75_chars_witness :
    ('\r' ∉ renderContentLine ⟨str "SUMMARY", [], some (str "Hello")⟩ ∧
     '\n' ∉ renderContentLine ⟨str "SUMMARY", [], some (str "Hello")⟩) ∧
    (∀ line ∈ splitCRLF
        (ContentLine.generate ⟨str "SUMMARY", [], some (str "Hello")⟩),
      line.length ≤ 75) :=
  ⟨⟨by decide, by decide⟩,
   (generate_folds_within_75_chars
     ⟨str "SUMMARY", [], some (str "Hello")⟩ (by decide) (by decide)).1⟩

theorem bytesLinesGo_append_crlf (p : Str) (hn : '\n' ∉ p) :
    ∀ (acc t : Str), bytesLinesGo acc (p ++ '\r' :: '\n' :: t) =
      (acc ++ p) :: bytesLinesGo [] t := by
  induction p with
  | nil =>
    intro acc t
    show bytesLinesGo acc ('\r' :: '\n' :: t) = (acc ++ []) :: _
    conv_lhs => rw [bytesLinesGo]
    rw [if_neg (by decide)]
    conv_lhs => rw [bytesLinesGo]
    rw [if_pos rfl, if_pos (by simp), List.dropLast_concat]
    simp
  | cons a p' ih =>
    intro acc t
    have ha : a ≠ '\n' := fun hx => hn (hx ▸ List.mem_cons_self a p')
    have hp' : '\n' ∉ p' := fun hx => hn (List.mem_cons_of_mem a hx)
    show bytesLinesGo acc (a :: (p' ++ '\r' :: '\n' :: t)) = _
    conv_lhs => rw [bytesLinesGo]
    rw [if_neg ha, ih hp' (acc ++ [a]) t]
    simp

theorem bytesLinesGo_no_newline (p : Str) (hn : '\n' ∉ p) :
    ∀ acc : Str, bytesLinesGo acc p =
      if acc ++ p = [] then [] else [acc ++ p] := by
  induction p with
  | nil =>
    intro acc
    simp [bytesLinesGo]
  | cons a p' ih =>
    intro acc
    have ha : a ≠ '\n' := fun hx => hn (hx ▸ List.mem_cons_self a p')
    have hp' : '\n' ∉ p' := fun hx => hn (List.mem_cons_of_mem a hx)
    conv_lhs => rw [bytesLinesGo]
    rw [if_neg ha, ih hp' (acc ++ [a])]
    rw [show acc ++ [a] ++ p' = acc ++ (a :: p') by simp]

theorem cons_intercalate {α : Type} (c : α) (s x : List α)
    (xs : List (List α)) :
    c :: List.intercalate s (x :: xs) =
      List.intercalate s ((c :: x) :: xs) := by
  cases xs with
  | nil => rw [intercalate_singleton, intercalate_singleton]
  | cons y ys =>
    rw [intercalate_cons_of_ne s x (y :: ys) (by simp),
      intercalate_cons_of_ne s (c :: x) (y :: ys) (by simp)]
    simp

/-- Reading back the folded chunk sequence: the first chunk is the first
physical line, every further chunk reappears with the separator's space in
front (the continuation marker). -/
theorem bytesLines_intercalate :
    ∀ (cs : List Str) (c0 : Str), c0 ≠ [] → '\n' ∉ c0 →
      (∀ c ∈ cs, '\n' ∉ c) →
      bytesLines (List.intercalate crlfSp (c0 :: cs)) =
        c0 :: cs.map (fun c => ' ' :: c) := by
  intro cs
  induction cs with
  | nil =>
    intro c0 h0 hn _
    rw [intercalate_singleton]
    unfold bytesLines
    rw [bytesLinesGo_no_newline c0 hn []]
    simp [h0]
  | cons c1 cs' ih =>
    intro c0 h0 hn hcs
    rw [intercalate_cons_of_ne _ _ _ (by simp)]
    have hshape : c0 ++ crlfSp ++ List.intercalate crlfSp (c1 :: cs') =
        c0 ++ '\r' :: '\n' ::
          (' ' :: List.intercalate crlfSp (c1 :: cs')) := by
      simp [crlfSp]
    rw [hshape]
    unfold bytesLines
    rw [bytesLinesGo_append_crlf c0 hn]
    rw [cons_intercalate ' ' crlfSp c1 cs']
    rw [show bytesLinesGo [] (List.intercalate crlfSp ((' ' :: c1) :: cs'))
      = bytesLines (List.intercalate crlfSp ((' ' :: c1) :: cs')) from rfl]
    rw [ih (' ' :: c1) (by simp)
      (by
        intro hx
        rcases List.mem_cons.mp hx with h | h
        · simp at h
        · exact hcs c1 (List.mem_cons_self c1 cs') h)
      (fun c hc => hcs c (List.mem_cons_of_mem c1 hc))]
    simp

/-- Every character of a tail chunk is a character of the chunked text. -/
theorem chunksAfterFirst_subset (s : Str) :
    ∀ c ∈ chunksAfterFirst s, ∀ x ∈ c, x ∈ s := by
  suffices h : ∀ n s, List.length s = n →
      ∀ c ∈ chunksAfterFirst s, ∀ x ∈ c, x ∈ s from h s.length s rfl
  intro n
  induction n using Nat.strong_induction_on with
  | _ n ih =>
    intro s hl c hc x hx
    cases s with
    | nil => simp [chunksAfterFirst, chunksAfterFirstGo] at hc
    | cons a as =>
      rw [chunksAfterFirst_cons] at hc
      rcases List.mem_cons.mp hc with h | h
      · exact List.mem_of_mem_take (h ▸ hx)
      · exact List.mem_of_mem_drop
          (ih ((a :: as).drop 74).length
            (by simp only [List.length_drop, List.length_cons] at *; omega)
            _ rfl c h x hx)

theorem takeWhile_all {α : Type} (p : α → Bool) :
    ∀ l : List α, (∀ x ∈ l, p x) →
      (l.takeWhile p = l ∧ l.dropWhile p = []) := by
  intro l
  induction l with
  | nil => intro _; exact ⟨rfl, rfl⟩
  | cons a t ih =>
    intro h
    have ha : p a := h a (List.mem_cons_self a t)
    have ht := ih (fun x hx => h x (List.mem_cons_of_mem a hx))
    rw [List.takeWhile_cons, List.dropWhile_cons]
    simp [ha, ht.1, ht.2]

/-- C5, counterexample: a lone `'\n'` contains no embedded CRLF, yet
reading back its folded rendering does not reproduce it — the reader
treats the bare `'\n'` as a line break and then skips the resulting empty
line, returning no logical line at all. -/
theorem lone_lf_breaks_fold_unfold :
    ¬ List.IsInfix crlf ['\n'] ∧
      (lineReader (splitLine ['\n'])).map Prod.fst ≠ [['\n']] := by
  decide

/-- C5 (amended): for every non-empty text `T` containing no `'\n'` at
all (not merely no CRLF), unfolding the folded rendering of `T` yields
exactly `T` as the single logical line; characters are never split, so
this holds in particular for multi-byte characters at a fold boundary. -/
theorem fold_then_unfold_reproduces_text (T : Str) (hne : T ≠ [])
    (hn : '\n' ∉ T) :
    lineReader (splitLine T) = [(T, 1)] := by
  cases T with
  | nil => exact absurd rfl hne
  | cons a as =>
    have hchunks : splitLineChunks (a :: as) =
        (a :: as).take 75 :: chunksAfterFirst ((a :: as).drop 75) := rfl
    have hbytes : bytesLines (splitLine (a :: as)) =
        (a :: as).take 75 ::
          (chunksAfterFirst ((a :: as).drop 75)).map (fun c => ' ' :: c) := by
      unfold splitLine
      rw [hchunks]
      exact bytesLines_intercalate _ _ (by simp)
        (fun hx => hn (List.mem_of_mem_take hx))
        (fun c hc hx => hn (List.mem_of_mem_drop
          (chunksAfterFirst_subset _ c hc '\n' hx)))
    unfold lineReader
    rw [hbytes]
    rw [lineReaderGo_cons 0 _ _ (by simp)]
    have hcont := takeWhile_all isCont
      ((chunksAfterFirst ((a :: as).drop 75)).map (fun c => ' ' :: c))
      (by
        intro x hx
        rcases List.mem_map.mp hx with ⟨c, _, hc⟩
        subst hc
        simp [isCont])
    rw [hcont.1, hcont.2]
    rw [List.map_map]
    rw [show (List.drop 1 ∘ fun c => ' ' :: c) = fun c : Str => c from rfl]
    rw [show (chunksAfterFirst ((a :: as).drop 75)).map (fun c : Str => c)
      = chunksAfterFirst ((a :: as).drop 75) from List.map_id' _]
    have hflat : (a :: as).take 75 ++
        (chunksAfterFirst ((a :: as).drop 75)).flatten = a :: as := by
      rw [chunksAfterFirst_flatten]
      exact List.take_append_drop 75 (a :: as)
    rw [hflat]
    rfl

theorem fold_then_unfold_reproduces_text_witness :
    (str "HELLO" ≠ [] ∧ '\n' ∉ str "HELLO") ∧
      lineReader (splitLine (str "HELLO")) = [(str "HELLO", 1)] :=
  ⟨⟨by decide, by decide⟩,
   fold_then_unfold_reproduces_text (str "HELLO") (by decide) (by decide)⟩

/-- Characters safe in a property name or parameter key: no tokenizer
delimiter, no escaping trigger, no line-break character, and no leading
fold/continuation marker. -/
def tokenChar (c : Char) : Bool :=
  ¬ (c = ';' ∨ c = ':' ∨ c = ',' ∨ c = '=' ∨ c = '"' ∨ c = '\\' ∨
     c = '\r' ∨ c = '\n' ∨ c = ' ' ∨ c = '\t')

/-- Characters safe in a parameter value: none that `protect_param`
escapes, none at which the tokenizer's value scan stops, and no
line-break character. -/
def paramValChar (c : Char) : Bool :=
  ¬ (c = ';' ∨ c = ':' ∨ c = ',' ∨ c = '"' ∨ c = '\\' ∨
     c = '\r' ∨ c = '\n')

/-- Characters safe in a property value: everything after the `':'` is
taken verbatim to the end of the logical line, so only line breaks are
unsafe. -/
def lineChar (c : Char) : Bool := ¬ (c = '\r' ∨ c = '\n')

/-- A content line that survives the generate/parse round trip: a
non-empty, delimiter-free name that is not a component bracket; parameter
keys non-empty, delimiter-free and fixed by uppercasing; parameter value
lists non-empty with non-empty values free of escaped characters; and a
value that is absent or non-empty and free of line breaks. -/
def SafeProp (p : ContentLine) : Prop :=
  p.name ≠ [] ∧ (∀ c ∈ p.name, tokenChar c) ∧
  p.name ≠ str "BEGIN" ∧ p.name ≠ str "END" ∧
  (∀ kv ∈ p.params, kv.1 ≠ [] ∧ (∀ c ∈ kv.1, tokenChar c) ∧
    rustUppercase kv.1 = kv.1 ∧ kv.2 ≠ [] ∧
    ∀ v ∈ kv.2, v ≠ [] ∧ ∀ c ∈ v, paramValChar c) ∧
  p.value ≠ some [] ∧ ∀ c ∈ p.value.getD [], lineChar c

instance (p : ContentLine) : Decidable (SafeProp p) := by
  unfold SafeProp
  infer_instance

theorem protectParamGo_id :
    ∀ (v : Str), (∀ c ∈ v, paramValChar c) →
      ∀ (len pos : Nat) (prev : Option Char),
        protectParamGo false len pos prev v = v := by
  intro v
  induction v with
  | nil => intro _ len pos prev; rfl
  | cons c v' ih =>
    intro hall len pos prev
    have hc : paramValChar c = true := hall c (List.mem_cons_self c v')
    have hv' : ∀ x ∈ v', paramValChar x :=
      fun x hx => hall x (List.mem_cons_of_mem c hx)
    simp only [paramValChar, decide_not, Bool.not_eq_true',
      decide_eq_false_iff_not] at hc
    push_neg at hc
    obtain ⟨h1, h2, h3, h4, h5, h6, h7⟩ := hc
    simp only [protectParamGo]
    rw [if_neg h7]
    rw [if_neg (fun hx => h4 hx.1)]
    rw [if_neg (by
      intro hx
      rcases hx.1 with h | h | h | h
      · exact h1 h
      · exact h2 h
      · exact h3 h
      · exact h5 h)]
    rw [ih hv' len (pos + 1) (some c)]
    rfl

theorem protectParam_id (v : Str) (hall : ∀ c ∈ v, paramValChar c) :
    protectParam v = v := by
  unfold protectParam
  have hq : decide (v.length > 1 ∧ v.head? = some '"' ∧
      v.getLast? = some '"') = false := by
    cases v with
    | nil => rfl
    | cons c v' =>
      have hc : paramValChar c = true := hall c (List.mem_cons_self c v')
      have : c ≠ '"' := by
        simp only [paramValChar, decide_not, Bool.not_eq_true',
          decide_eq_false_iff_not] at hc
        push_neg at hc
        exact hc.2.2.2.1
      simp [this]
  dsimp only
  rw [hq]
  exact protectParamGo_id v hall v.length 0 none

/-- When every parameter value is escape-free, `get_params` renders the
parameters with the values verbatim. -/
theorem getParams_safe (params : List (Str × List Str))
    (h : ∀ kv ∈ params, ∀ v ∈ kv.2, ∀ c ∈ v, paramValChar c) :
    getParams params = List.intercalate [PARAM_DELIMITER]
      (params.map (fun kv => kv.1 ++ [PARAM_NAME_DELIMITER] ++
        List.intercalate [PARAM_VALUE_DELIMITER] kv.2)) := by
  unfold getParams
  congr 1
  apply List.map_congr_left
  intro kv hkv
  have : kv.2.map protectParam = kv.2 := by
    calc kv.2.map protectParam = kv.2.map (fun v => v) :=
          List.map_congr_left (fun v hv => protectParam_id v (h kv hkv v hv))
      _ = kv.2 := List.map_id' _
  rw [this]

theorem mem_intercalate {α : Type} (s : List α) :
    ∀ (l : List (List α)) (x : α), x ∈ List.intercalate s l →
      x ∈ s ∨ ∃ y ∈ l, x ∈ y := by
  intro l
  induction l with
  | nil => intro x hx; simp [List.intercalate] at hx
  | cons a rest ih =>
    intro x hx
    cases rest with
    | nil =>
      rw [intercalate_singleton] at hx
      exact .inr ⟨a, List.mem_cons_self a [], hx⟩
    | cons b rest' =>
      rw [intercalate_cons_of_ne s a (b :: rest') (by simp)] at hx
      rcases List.mem_append.mp hx with h | h
      · rcases List.mem_append.mp h with h | h
        · exact .inr ⟨a, List.mem_cons_self _ _, h⟩
        · exact .inl h
      · rcases ih x h with h | ⟨y, hy, hxy⟩
        · exact .inl h
        · exact .inr ⟨y, List.mem_cons_of_mem a hy, hxy⟩

theorem tokenChar_lineChar (c : Char) (h : tokenChar c) : lineChar c := by
  simp only [tokenChar, decide_not, Bool.not_eq_true',
    decide_eq_false_iff_not] at h
  push_neg at h
  simp only [lineChar, decide_not, Bool.not_eq_true',
    decide_eq_false_iff_not]
  push_neg at *
  exact ⟨h.2.2.2.2.2.2.1, h.2.2.2.2.2.2.2.1⟩

theorem paramValChar_lineChar (c : Char) (h : paramValChar c) :
    lineChar c := by
  simp only [paramValChar, decide_not, Bool.not_eq_true',
    decide_eq_false_iff_not] at h
  push_neg at h
  simp only [lineChar, decide_not, Bool.not_eq_true',
    decide_eq_false_iff_not]
  push_neg at *
  exact ⟨h.2.2.2.2.2.1, h.2.2.2.2.2.2⟩

/-- A safe content line renders free of line-break characters. -/
theorem render_lineChar (p : ContentLine) (hs : SafeProp p) :
    ∀ c ∈ renderContentLine p, lineChar c := by
  obtain ⟨hn1, hn2, -, -, hparams, -, hval⟩ := hs
  intro c hc
  unfold renderContentLine at hc
  dsimp only at hc
  rcases List.mem_append.mp hc with hc | hc
  · rcases List.mem_append.mp hc with hc | hc
    · rcases List.mem_append.mp hc with hc | hc
      · exact tokenChar_lineChar c (hn2 c hc)
      · by_cases hps : getParams p.params = []
        · rw [if_pos hps] at hc
          simp at hc
        · rw [if_neg hps] at hc
          rcases List.mem_cons.mp hc with hc | hc
          · subst hc
            decide
          · have hgp := getParams_safe p.params
              (fun kv hkv v hv => ((hparams kv hkv).2.2.2.2 v hv).2)
            rw [hgp] at hc
            rcases mem_intercalate _ _ c hc with h | ⟨y, hy, hcy⟩
            · simp only [List.mem_singleton] at h
              subst h
              decide
            · rcases List.mem_map.mp hy with ⟨kv, hkv, hykv⟩
              subst hykv
              rcases List.mem_append.mp hcy with h | h
              · rcases List.mem_append.mp h with h | h
                · exact tokenChar_lineChar c ((hparams kv hkv).2.1 c h)
                · simp only [List.mem_singleton] at h
                  subst h
                  decide
              · rcases mem_intercalate _ _ c h with h | ⟨v, hv, hcv⟩
                · simp only [List.mem_singleton] at h
                  subst h
                  decide
                · exact paramValChar_lineChar c
                    (((hparams kv hkv).2.2.2.2 v hv).2 c hcv)
    · simp only [List.mem_singleton] at hc
      subst hc
      decide
  · exact hval c hc

theorem tokenChar_facts (c : Char) (h : tokenChar c) :
    c ≠ ';' ∧ c ≠ ':' ∧ c ≠ ',' ∧ c ≠ '=' ∧ c ≠ '"' ∧ c ≠ '\\' ∧
    c ≠ '\r' ∧ c ≠ '\n' ∧ c ≠ ' ' ∧ c ≠ '\t' := by
  simp only [tokenChar, decide_not, Bool.not_eq_true',
    decide_eq_false_iff_not] at h
  push_neg at h
  exact h

theorem paramValChar_facts (c : Char) (h : paramValChar c) :
    c ≠ ';' ∧ c ≠ ':' ∧ c ≠ ',' ∧ c ≠ '"' ∧ c ≠ '\\' ∧
    c ≠ '\r' ∧ c ≠ '\n' := by
  simp only [paramValChar, decide_not, Bool.not_eq_true',
    decide_eq_false_iff_not] at h
  push_neg at h
  exact h

theorem findIdx_clean_aux (p : Char → Bool) :
    ∀ (s : Str), (∀ c ∈ s, p c = false) → ∀ (d : Char) (t : Str) (i : Nat),
      p d = true → List.findIdx? p (s ++ d :: t) i = some (i + s.length) := by
  intro s
  induction s with
  | nil =>
    intro _ d t i hd
    show List.findIdx? p (d :: t) i = some (i + 0)
    rw [List.findIdx?]
    simp [hd]
  | cons a s' ih =>
    intro h d t i hd
    have ha : p a = false := h a (List.mem_cons_self a s')
    show List.findIdx? p (a :: (s' ++ d :: t)) i = _
    rw [List.findIdx?]
    rw [if_neg (by simp [ha])]
    rw [ih (fun c hc => h c (List.mem_cons_of_mem a hc)) d t (i + 1) hd]
    simp only [List.length_cons, Option.some.injEq]
    omega

theorem findIdx_clean_first (p : Char → Bool) (s : Str)
    (h : ∀ c ∈ s, p c = false) (d : Char) (t : Str) (hd : p d = true) :
    (s ++ d :: t).findIdx? p = some s.length := by
  have := findIdx_clean_aux p s h d t 0 hd
  simpa using this

theorem take_append_cons {α : Type} (l : List α) (d : α) (r : List α) :
    (l ++ d :: r).take l.length = l := by
  rw [List.take_append_of_le_length (Nat.le_refl _), List.take_length]

theorem drop_append_cons {α : Type} (l : List α) (d : α) (r : List α) :
    (l ++ d :: r).drop (l.length + 1) = r := by
  rw [show l ++ d :: r = (l ++ [d]) ++ r by simp,
    show l.length + 1 = (l ++ [d]).length by simp, List.drop_left]

theorem intercalate_ne_nil_of_head {α : Type} (s a : List α)
    (l : List (List α)) (ha : a ≠ []) :
    List.intercalate s (a :: l) ≠ [] := by
  cases l with
  | nil =>
    rw [intercalate_singleton]
    exact ha
  | cons b l' =>
    rw [intercalate_cons_of_ne s a (b :: l') (by simp)]
    cases a with
    | nil => exact absurd rfl ha
    | cons x a' => simp

theorem intercalate_cons_head {α : Type} (s : List α) (y : α) (a : List α)
    (l : List (List α)) :
    ∃ X, List.intercalate s ((y :: a) :: l) = y :: X := by
  cases l with
  | nil => exact ⟨a, by rw [intercalate_singleton]⟩
  | cons b l' =>
    refine ⟨a ++ s ++ List.intercalate s (b :: l'), ?_⟩
    rw [intercalate_cons_of_ne s (y :: a) (b :: l') (by simp)]
    simp

/-- Reading back one escaped-value run: with escape-free, non-empty
values the value loop returns the values verbatim and stops at the first
`';'` or `':'`. -/
theorem parseValuesLoop_render (num : Nat) :
    ∀ (vs : List Str),
      (∀ v ∈ vs, v ≠ [] ∧ ∀ c ∈ v, paramValChar c) →
      ∀ (d : Char) (t : Str), d = PARAM_DELIMITER ∨ d = VALUE_DELIMITER →
      vs ≠ [] →
      parseValuesLoop num
        (List.intercalate [PARAM_VALUE_DELIMITER] vs ++ d :: t) =
        .ok (vs, d :: t) := by
  intro vs
  induction vs with
  | nil => intro _ d t _ hne; exact absurd rfl hne
  | cons v vs' ih =>
    intro hsafe d t hd _
    obtain ⟨hvne, hvchars⟩ := hsafe v (List.mem_cons_self v vs')
    have hdne : d ≠ PARAM_VALUE_DELIMITER := by
      rcases hd with h | h <;> (subst h; decide)
    have hdtrue : (fun c => decide (c = PARAM_DELIMITER ∨
        c = VALUE_DELIMITER ∨ c = PARAM_VALUE_DELIMITER)) d = true := by
      rcases hd with h | h <;> simp [h]
    have hclean : ∀ c ∈ v, (fun c => decide (c = PARAM_DELIMITER ∨
        c = VALUE_DELIMITER ∨ c = PARAM_VALUE_DELIMITER)) c = false := by
      intro c hc
      have hf := paramValChar_facts c (hvchars c hc)
      simp only [decide_eq_false_iff_not]
      intro hx
      rcases hx with h | h | h
      · exact hf.1 h
      · exact hf.2.1 h
      · exact hf.2.2.1 h
    have hnoquote : ∀ (rest : Str),
        ¬ ((v ++ rest).head? = some PARAM_QUOTE) := by
      intro rest
      cases v with
      | nil => exact absurd rfl hvne
      | cons x v0 =>
        have hx := paramValChar_facts x (hvchars x (List.mem_cons_self x v0))
        simp only [List.cons_append, List.head?_cons, Option.some.injEq]
        exact fun h => hx.2.2.2.1 h
    rw [parseValuesLoop_eq]
    cases vs' with
    | nil =>
      rw [intercalate_singleton]
      have h1 : parseOneValue num (v ++ d :: t) = .ok (v, d :: t) := by
        unfold parseOneValue
        rw [if_neg (hnoquote (d :: t))]
        rw [findIdx_clean_first _ v hclean d t hdtrue]
        dsimp only
        rw [take_append_cons, List.drop_left]
      rw [h1]
      dsimp only
      rw [if_neg (by
        simp only [List.head?_cons, Option.some.injEq]
        exact hdne)]
    | cons v2 vs'' =>
      rw [intercalate_cons_of_ne _ _ _ (by simp)]
      have hshape : v ++ [PARAM_VALUE_DELIMITER] ++
          List.intercalate [PARAM_VALUE_DELIMITER] (v2 :: vs'') ++ d :: t =
        v ++ PARAM_VALUE_DELIMITER ::
          (List.intercalate [PARAM_VALUE_DELIMITER] (v2 :: vs'') ++
            d :: t) := by
        simp
      rw [hshape]
      have h1 : parseOneValue num (v ++ PARAM_VALUE_DELIMITER ::
          (List.intercalate [PARAM_VALUE_DELIMITER] (v2 :: vs'') ++
            d :: t)) =
          .ok (v, PARAM_VALUE_DELIMITER ::
            (List.intercalate [PARAM_VALUE_DELIMITER] (v2 :: vs'') ++
              d :: t)) := by
        unfold parseOneValue
        rw [if_neg (hnoquote _)]
        rw [findIdx_clean_first _ v hclean PARAM_VALUE_DELIMITER _
          (by simp [PARAM_VALUE_DELIMITER])]
        dsimp only
        rw [take_append_cons, List.drop_left]
      rw [h1]
      dsimp only
      rw [if_pos (show (PARAM_VALUE_DELIMITER ::
        (List.intercalate [PARAM_VALUE_DELIMITER] (v2 :: vs'') ++
          d :: t)).head? = some PARAM_VALUE_DELIMITER from rfl)]
      obtain ⟨hv2ne, hv2chars⟩ := hsafe v2
        (List.mem_cons_of_mem v (List.mem_cons_self v2 vs''))
      have hdrop : (PARAM_VALUE_DELIMITER ::
          (List.intercalate [PARAM_VALUE_DELIMITER] (v2 :: vs'') ++
            d :: t)).dropWhile (fun c => c = PARAM_VALUE_DELIMITER) =
          List.intercalate [PARAM_VALUE_DELIMITER] (v2 :: vs'') ++
            d :: t := by
        rw [List.dropWhile_cons_of_pos (by simp)]
        cases v2 with
        | nil => exact absurd rfl hv2ne
        | cons y v20 =>
          have hy := paramValChar_facts y
            (hv2chars y (List.mem_cons_self y v20))
          obtain ⟨X, hX⟩ :=
            intercalate_cons_head [PARAM_VALUE_DELIMITER] y v20 vs''
          rw [hX]
          rw [List.cons_append]
          rw [List.dropWhile_cons_of_neg (by
            simp only [decide_eq_true_eq]
            exact hy.2.2.1)]
      rw [hdrop]
      rw [ih (fun w hw => hsafe w (List.mem_cons_of_mem v hw)) d t hd
        (by simp)]

/-- Reading back one rendered parameter run: with safe keys and values
the parameter loop returns the parameters verbatim (uppercasing fixes the
keys) and stops at the `':'` before the value. -/
theorem parseParamsLoop_render (num : Nat) :
    ∀ (params : List (Str × List Str)),
      (∀ kv ∈ params, kv.1 ≠ [] ∧ (∀ c ∈ kv.1, tokenChar c) ∧
        rustUppercase kv.1 = kv.1 ∧ kv.2 ≠ [] ∧
        ∀ v ∈ kv.2, v ≠ [] ∧ ∀ c ∈ v, paramValChar c) →
      ∀ (t : Str), params ≠ [] →
      parseParamsLoop num (PARAM_DELIMITER ::
        (List.intercalate [PARAM_DELIMITER]
          (params.map (fun kv => kv.1 ++ [PARAM_NAME_DELIMITER] ++
            List.intercalate [PARAM_VALUE_DELIMITER] kv.2)) ++
         VALUE_DELIMITER :: t)) =
        .ok (params, VALUE_DELIMITER :: t) := by
  intro params
  induction params with
  | nil => intro _ t hne; exact absurd rfl hne
  | cons kv params' ih =>
    intro hsafe t _
    obtain ⟨hkne, hkchars, huk, hvsne, hvs⟩ :=
      hsafe kv (List.mem_cons_self kv params')
    have hkclean : ∀ c ∈ kv.1,
        (fun c => decide (c = PARAM_NAME_DELIMITER)) c = false := by
      intro c hc
      have hf := tokenChar_facts c (hkchars c hc)
      simp only [decide_eq_false_iff_not]
      exact hf.2.2.2.1
    have heqtrue : (fun c => decide (c = PARAM_NAME_DELIMITER))
        PARAM_NAME_DELIMITER = true := by simp
    have hrecnil : ∀ (u : Str),
        parseParamsLoop num (VALUE_DELIMITER :: u) =
          .ok ([], VALUE_DELIMITER :: u) := by
      intro u
      rw [parseParamsLoop_eq]
      rw [if_neg (by simp [VALUE_DELIMITER, PARAM_DELIMITER])]
    rw [parseParamsLoop_eq]
    rw [if_pos (show (PARAM_DELIMITER :: (List.intercalate [PARAM_DELIMITER]
        ((kv :: params').map (fun kv => kv.1 ++ [PARAM_NAME_DELIMITER] ++
          List.intercalate [PARAM_VALUE_DELIMITER] kv.2)) ++
        VALUE_DELIMITER :: t)).head? = some PARAM_DELIMITER from rfl)]
    dsimp only
    simp only [List.drop_succ_cons, List.drop_zero]
    cases params' with
    | nil =>
      rw [List.map_cons, List.map_nil, intercalate_singleton]
      have hre : (kv.1 ++ [PARAM_NAME_DELIMITER] ++
          List.intercalate [PARAM_VALUE_DELIMITER] kv.2) ++
          VALUE_DELIMITER :: t =
        kv.1 ++ PARAM_NAME_DELIMITER ::
          (List.intercalate [PARAM_VALUE_DELIMITER] kv.2 ++
            VALUE_DELIMITER :: t) := by
        simp
      rw [hre]
      rw [findIdx_clean_first _ kv.1 hkclean PARAM_NAME_DELIMITER _
        heqtrue]
      dsimp only
      rw [take_append_cons]
      rw [if_neg hkne]
      rw [drop_append_cons]
      rw [parseValuesLoop_render num kv.2 hvs VALUE_DELIMITER t
        (Or.inr rfl) hvsne]
      dsimp only
      rw [hrecnil t]
      dsimp only
      rw [huk]
    | cons kv2 params'' =>
      rw [List.map_cons]
      rw [intercalate_cons_of_ne _ _ _ (by simp)]
      have hre : (kv.1 ++ [PARAM_NAME_DELIMITER] ++
          List.intercalate [PARAM_VALUE_DELIMITER] kv.2) ++
          [PARAM_DELIMITER] ++
          List.intercalate [PARAM_DELIMITER]
            ((kv2 :: params'').map (fun kv =>
              kv.1 ++ [PARAM_NAME_DELIMITER] ++
                List.intercalate [PARAM_VALUE_DELIMITER] kv.2)) ++
          VALUE_DELIMITER :: t =
        kv.1 ++ PARAM_NAME_DELIMITER ::
          (List.intercalate [PARAM_VALUE_DELIMITER] kv.2 ++
            PARAM_DELIMITER ::
              (List.intercalate [PARAM_DELIMITER]
                ((kv2 :: params'').map (fun kv =>
                  kv.1 ++ [PARAM_NAME_DELIMITER] ++
                    List.intercalate [PARAM_VALUE_DELIMITER] kv.2)) ++
                VALUE_DELIMITER :: t)) := by
        simp
      rw [hre]
      rw [findIdx_clean_first _ kv.1 hkclean PARAM_NAME_DELIMITER _
        heqtrue]
      dsimp only
      rw [take_append_cons]
      rw [if_neg hkne]
      rw [drop_append_cons]
      rw [parseValuesLoop_render num kv.2 hvs PARAM_DELIMITER _
        (Or.inl rfl) hvsne]
      dsimp only
      rw [ih (fun kv hkv => hsafe kv (List.mem_cons_of_mem _ hkv)) t
        (by simp)]
      dsimp only
      rw [huk]

/-- The heart of the round trip: tokenizing the rendered logical line of a
safe content line returns that content line exactly, at any line number. -/
theorem parseContentLine_render (num : Nat) (p : ContentLine)
    (hs : SafeProp p) :
    parseContentLine num (renderContentLine p) = .ok p := by
  obtain ⟨name, params, value⟩ := p
  obtain ⟨hn1, hn2, -, -, hparams, hv1, hv2⟩ := hs
  have hnclean : ∀ c ∈ name,
      (fun c => decide (c = PARAM_DELIMITER ∨ c = VALUE_DELIMITER)) c
        = false := by
    intro c hc
    have hf := tokenChar_facts c (hn2 c hc)
    simp only [decide_eq_false_iff_not]
    intro hx
    rcases hx with h | h
    · exact hf.1 h
    · exact hf.2.1 h
  unfold renderContentLine parseContentLine
  dsimp only
  cases params with
  | nil =>
    have hgp : getParams ([] : List (Str × List Str)) = [] := rfl
    rw [hgp, if_pos rfl]
    have hre : name ++ [] ++ [VALUE_DELIMITER] ++
        (value.getD []) =
      name ++ VALUE_DELIMITER :: value.getD [] := by simp
    rw [hre]
    rw [findIdx_clean_first _ name hnclean VALUE_DELIMITER _ (by simp)]
    dsimp only
    rw [take_append_cons]
    rw [if_neg hn1]
    rw [List.drop_left]
    have hrec : parseParamsLoop num
        (VALUE_DELIMITER :: value.getD []) =
        .ok ([], VALUE_DELIMITER :: value.getD []) := by
      rw [parseParamsLoop_eq]
      rw [if_neg (by simp [VALUE_DELIMITER, PARAM_DELIMITER])]
    rw [hrec]
    dsimp only
    rw [if_pos (show (VALUE_DELIMITER ::
      value.getD []).head? = some VALUE_DELIMITER from rfl)]
    cases value with
    | none => rfl
    | some w =>
      have hw : w ≠ [] := fun hx => hv1 (by rw [hx])
      simp only [Option.getD_some, List.drop_succ_cons, List.drop_zero]
      rw [if_neg hw]
  | cons kv params' =>
    have hsafe2 : ∀ x ∈ kv :: params', ∀ v ∈ x.2, ∀ c ∈ v,
        paramValChar c :=
      fun x hx v hv c hc => ((hparams x hx).2.2.2.2 v hv).2 c hc
    have hgp := getParams_safe (kv :: params') hsafe2
    have hkne : kv.1 ≠ [] := (hparams kv (List.mem_cons_self kv params')).1
    have hgpne : getParams (kv :: params') ≠ [] := by
      rw [hgp, List.map_cons]
      apply intercalate_ne_nil_of_head
      cases hk : kv.1 with
      | nil => exact absurd hk hkne
      | cons x k' => simp
    rw [if_neg hgpne]
    have hre : name ++ PARAM_DELIMITER :: getParams (kv :: params') ++
        [VALUE_DELIMITER] ++ value.getD [] =
      name ++ PARAM_DELIMITER :: (getParams (kv :: params') ++
        VALUE_DELIMITER :: value.getD []) := by simp
    rw [hre]
    rw [findIdx_clean_first _ name hnclean PARAM_DELIMITER _ (by simp)]
    dsimp only
    rw [take_append_cons]
    rw [if_neg hn1]
    rw [List.drop_left]
    rw [hgp]
    rw [parseParamsLoop_render num (kv :: params') hparams
      (value.getD []) (by simp)]
    dsimp only
    rw [if_pos (show (VALUE_DELIMITER ::
      value.getD []).head? = some VALUE_DELIMITER from rfl)]
    cases value with
    | none => rfl
    | some w =>
      have hw : w ≠ [] := fun hx => hv1 (by rw [hx])
      simp only [Option.getD_some, List.drop_succ_cons, List.drop_zero]
      rw [if_neg hw]

/-- A logical line that folds and unfolds cleanly: non-empty, not starting
with a continuation marker, free of line-break characters, and with a
length that keeps the appended CRLF off a chunk boundary. -/
def GoodLine (l : Str) : Prop :=
  l ≠ [] ∧ l.head? ≠ some ' ' ∧ l.head? ≠ some '\t' ∧
  '\r' ∉ l ∧ '\n' ∉ l ∧ l.length % 74 ≠ 0

theorem contMarkedPieces_lf_free :
    ∀ t, '\n' ∉ t → ∀ c ∈ contMarkedPieces t, '\n' ∉ c := by
  intro t
  induction t using contMarkedPieces.induct with
  | case1 t hle =>
    intro htn c hc hmem
    rw [contMarkedPieces, if_pos hle] at hc
    simp only [List.mem_singleton] at hc
    subst hc
    rcases List.mem_cons.mp hmem with h | h
    · simp at h
    · exact htn h
  | case2 t hgt heq =>
    intro htn c hc hmem
    rw [contMarkedPieces, if_neg hgt, if_pos heq] at hc
    simp only [List.mem_singleton] at hc
    subst hc
    rcases List.mem_append.mp hmem with h | h
    · rcases List.mem_cons.mp h with h | h
      · simp at h
      · exact htn h
    · simp at h
  | case3 t hgt hne ih =>
    intro htn c hc hmem
    rw [contMarkedPieces, if_neg hgt, if_neg hne] at hc
    rcases List.mem_cons.mp hc with h | h
    · subst h
      rcases List.mem_cons.mp hmem with h | h
      · simp at h
      · exact htn (List.mem_of_mem_take h)
    · exact ih (fun hx => htn (List.mem_of_mem_drop hx)) c h hmem

theorem foldedPieces_lf_free (raw : Str) (hn : '\n' ∉ raw) :
    ∀ c ∈ foldedPieces raw, '\n' ∉ c := by
  intro c hc hmem
  unfold foldedPieces at hc
  by_cases h73 : raw.length ≤ 73
  · rw [if_pos h73] at hc
    simp only [List.mem_singleton] at hc
    exact hn (hc ▸ hmem)
  · rw [if_neg h73] at hc
    by_cases h74 : raw.length = 74
    · rw [if_pos h74] at hc
      simp only [List.mem_singleton] at hc
      subst hc
      rcases List.mem_append.mp hmem with h | h
      · exact hn h
      · simp at h
    · rw [if_neg h74] at hc
      rcases List.mem_cons.mp hc with h | h
      · exact hn (List.mem_of_mem_take (h ▸ hmem))
      · exact contMarkedPieces_lf_free (raw.drop 75)
          (fun hx => hn (List.mem_of_mem_drop hx)) c h hmem

/-- Reading the physical stream of CRLF-terminated pieces gives back the
pieces. -/
theorem bytesLines_pieces :
    ∀ (pieces : List Str), (∀ p ∈ pieces, '\n' ∉ p) →
      bytesLines ((pieces.map (fun p => p ++ crlf)).flatten) = pieces := by
  intro pieces
  induction pieces with
  | nil => intro _; rfl
  | cons p ps ih =>
    intro h
    simp only [List.map_cons, List.flatten_cons, List.append_assoc]
    rw [show crlf ++ (ps.map (fun p => p ++ crlf)).flatten =
      '\r' :: '\n' :: (ps.map (fun p => p ++ crlf)).flatten from rfl]
    unfold bytesLines
    rw [bytesLinesGo_append_crlf p (h p (List.mem_cons_self p ps))]
    rw [show bytesLinesGo [] ((ps.map (fun p => p ++ crlf)).flatten) =
      bytesLines ((ps.map (fun p => p ++ crlf)).flatten) from rfl]
    rw [ih (fun x hx => h x (List.mem_cons_of_mem p hx))]
    simp

/-- Rendering a list of straddle-free logical lines is the piecewise
CRLF-terminated physical stream. -/
theorem splitLine_flatten :
    ∀ (lines : List Str),
      (∀ raw ∈ lines, '\r' ∉ raw ∧ '\n' ∉ raw ∧ raw.length % 74 ≠ 0) →
      (lines.map (fun raw => splitLine (raw ++ crlf))).flatten =
        (((lines.map foldedPieces).flatten).map
          (fun p => p ++ crlf)).flatten := by
  intro lines
  induction lines with
  | nil => intro _; rfl
  | cons raw rest ih =>
    intro h
    obtain ⟨hr, hn, hm⟩ := h raw (List.mem_cons_self raw rest)
    simp only [List.map_cons, List.flatten_cons, List.map_append,
      List.flatten_append]
    rw [splitLine_crlf raw hr hn]
    have htail : foldedTail raw = [] := by
      unfold foldedTail
      rw [if_neg (by simp [hasStraddle]; omega)]
    rw [htail, List.append_nil,
      ih (fun l hl => h l (List.mem_cons_of_mem raw hl))]

theorem foldedPieces_cases (raw : Str) (hm : raw.length % 74 ≠ 0) :
    (raw.length ≤ 73 ∧ foldedPieces raw = [raw]) ∨
    (75 ≤ raw.length ∧
      foldedPieces raw = raw.take 75 :: contMarkedPieces (raw.drop 75)) := by
  unfold foldedPieces
  by_cases h73 : raw.length ≤ 73
  · exact .inl ⟨h73, by rw [if_pos h73]⟩
  · right
    have h74 : raw.length ≠ 74 := by omega
    exact ⟨by omega, by rw [if_neg h73, if_neg h74]⟩

/-- Stripping the continuation markers from the continuation pieces and
concatenating reproduces the chunked text, in the straddle-free case. -/
theorem contMarked_unfold :
    ∀ (t : Str), t.length % 74 ≠ 73 →
      ((contMarkedPieces t).map (List.drop 1)).flatten = t := by
  intro t
  induction t using contMarkedPieces.induct with
  | case1 t hle =>
    intro _
    rw [contMarkedPieces, if_pos hle]
    simp
  | case2 t hgt heq =>
    intro hm
    exact absurd (by omega : t.length % 74 = 73) hm
  | case3 t hgt hne ih =>
    intro hm
    rw [contMarkedPieces, if_neg hgt, if_neg hne]
    simp only [List.map_cons, List.flatten_cons]
    rw [show List.drop 1 (' ' :: t.take 74) = t.take 74 from rfl]
    rw [ih (by simp only [List.length_drop]; omega)]
    exact List.take_append_drop 74 t

theorem isCont_false_of_head (a : Char) (l : Str) (h1 : a ≠ ' ')
    (h2 : a ≠ '\t') : isCont (a :: l) = false := by
  simp [isCont, h1, h2]

theorem isCont_of_head_space (l : Str) (h : l.head? = some ' ') :
    isCont l = true := by
  simp [isCont, h]

theorem takeWhile_append_all {α : Type} (p : α → Bool) :
    ∀ (xs ys : List α), (∀ x ∈ xs, p x) →
      ((xs ++ ys).takeWhile p = xs ++ ys.takeWhile p ∧
       (xs ++ ys).dropWhile p = ys.dropWhile p) := by
  intro xs
  induction xs with
  | nil => intro ys _; exact ⟨rfl, rfl⟩
  | cons a xs' ih =>
    intro ys h
    have ha : p a := h a (List.mem_cons_self a xs')
    obtain ⟨h1, h2⟩ := ih ys (fun x hx => h x (List.mem_cons_of_mem a hx))
    rw [List.cons_append, List.takeWhile_cons_of_pos ha,
      List.dropWhile_cons_of_pos ha, h1, h2]
    exact ⟨rfl, rfl⟩

/-- The physical stream of a list of good logical lines starts with a
non-continuation piece (or is empty), so the reader's continuation scan
stops before it. -/
theorem flatten_pieces_not_cont (lines : List Str)
    (h : ∀ l ∈ lines, GoodLine l) :
    ((lines.map foldedPieces).flatten).takeWhile isCont = [] ∧
    ((lines.map foldedPieces).flatten).dropWhile isCont =
      (lines.map foldedPieces).flatten := by
  cases lines with
  | nil => exact ⟨rfl, rfl⟩
  | cons raw rest =>
    obtain ⟨hne, hsp, hta, hr, hn, hm⟩ :=
      h raw (List.mem_cons_self raw rest)
    obtain ⟨b, raw', hb⟩ : ∃ b raw', raw = b :: raw' := by
      cases raw with
      | nil => exact absurd rfl hne
      | cons b raw' => exact ⟨b, raw', rfl⟩
    have hbs : b ≠ ' ' := by
      intro hx
      exact hsp (by rw [hb, hx]; rfl)
    have hbt : b ≠ '\t' := by
      intro hx
      exact hta (by rw [hb, hx]; rfl)
    obtain ⟨c0, cs, hfp, hc0⟩ : ∃ c0 cs, foldedPieces raw = c0 :: cs ∧
        isCont c0 = false := by
      rcases foldedPieces_cases raw hm with ⟨h73, heq⟩ | ⟨h75, heq⟩
      · exact ⟨raw, [], heq, by rw [hb]; exact isCont_false_of_head b raw' hbs hbt⟩
      · refine ⟨raw.take 75, contMarkedPieces (raw.drop 75), heq, ?_⟩
        rw [hb, show (b :: raw').take 75 = b :: raw'.take 74 from rfl]
        exact isCont_false_of_head b (raw'.take 74) hbs hbt
    simp only [List.map_cons, List.flatten_cons, hfp, List.cons_append]
    rw [List.takeWhile_cons_of_neg (by rw [hc0]; simp),
      List.dropWhile_cons_of_neg (by rw [hc0]; simp)]
    exact ⟨rfl, rfl⟩

/-- The reader reassembles each folded good line from its pieces. -/
theorem lineReaderGo_pieces :
    ∀ (lines : List Str), (∀ l ∈ lines, GoodLine l) → ∀ (n : Nat),
      (lineReaderGo n ((lines.map foldedPieces).flatten)).map Prod.fst =
        lines := by
  intro lines
  induction lines with
  | nil => intro _ n; rfl
  | cons raw rest ih =>
    intro h n
    obtain ⟨hne, hsp, hta, hr, hn, hm⟩ :=
      h raw (List.mem_cons_self raw rest)
    have hrest : ∀ l ∈ rest, GoodLine l :=
      fun l hl => h l (List.mem_cons_of_mem raw hl)
    obtain ⟨htw, hdw⟩ := flatten_pieces_not_cont rest hrest
    rcases foldedPieces_cases raw hm with ⟨h73, heq⟩ | ⟨h75, heq⟩
    · simp only [List.map_cons, List.flatten_cons, heq, List.cons_append,
        List.nil_append]
      rw [lineReaderGo_cons n raw _ hne]
      rw [htw, hdw]
      simp only [List.map_nil, List.flatten_nil, List.append_nil,
        List.length_nil, List.map_cons]
      rw [ih hrest]
    · simp only [List.map_cons, List.flatten_cons, heq, List.cons_append]
      have htk : raw.take 75 ≠ [] := by
        cases raw with
        | nil => exact absurd rfl hne
        | cons b raw' => simp [show (b :: raw').take 75 =
            b :: raw'.take 74 from rfl]
      rw [lineReaderGo_cons n _ _ htk]
      have hcont : ∀ x ∈ contMarkedPieces (raw.drop 75), isCont x :=
        fun x hx => isCont_of_head_space x
          (contMarkedPieces_bounds (raw.drop 75) x hx).2
      obtain ⟨ht1, ht2⟩ := takeWhile_append_all isCont
        (contMarkedPieces (raw.drop 75))
        ((rest.map foldedPieces).flatten) hcont
      rw [ht1, ht2, htw, hdw, List.append_nil]
      have hasm : raw.take 75 ++
          ((contMarkedPieces (raw.drop 75)).map (List.drop 1)).flatten =
          raw := by
        rw [contMarked_unfold (raw.drop 75)
          (by simp only [List.length_drop]; omega)]
        exact List.take_append_drop 75 raw
      rw [hasm]
      simp only [List.map_cons]
      rw [ih hrest]

instance (l : Str) : Decidable (GoodLine l) := by
  unfold GoodLine
  infer_instance

/-- A safe content line under the straddle-free length condition renders
to a good logical line. -/
theorem safe_render_good (p : ContentLine) (hs : SafeProp p)
    (hm : (renderContentLine p).length % 74 ≠ 0) :
    GoodLine (renderContentLine p) := by
  have hlc := render_lineChar p hs
  have hcr : '\r' ∉ renderContentLine p := by
    intro hx
    have := hlc '\r' hx
    simp [lineChar] at this
  have hlf : '\n' ∉ renderContentLine p := by
    intro hx
    have := hlc '\n' hx
    simp [lineChar] at this
  obtain ⟨hn1, hn2, -, -, -, -, -⟩ := hs
  obtain ⟨b, name', hb⟩ : ∃ b n', p.name = b :: n' := by
    cases hname : p.name with
    | nil => exact absurd hname hn1
    | cons b n' => exact ⟨b, n', rfl⟩
  have hhead : (renderContentLine p).head? = some b := by
    unfold renderContentLine
    dsimp only
    rw [hb]
    simp
  have hbf := tokenChar_facts b
    (hn2 b (by rw [hb]; exact List.mem_cons_self b name'))
  refine ⟨?_, ?_, ?_, hcr, hlf, hm⟩
  · intro hx
    rw [hx] at hhead
    simp at hhead
  · rw [hhead]
    intro hx
    exact hbf.2.2.2.2.2.2.2.2.1 (by injection hx)
  · rw [hhead]
    intro hx
    exact hbf.2.2.2.2.2.2.2.2.2 (by injection hx)

theorem map_fst_append_single {α β : Type} :
    ∀ (pairs : List (α × β)) (xs : List α) (y : α),
      pairs.map Prod.fst = xs ++ [y] →
      ∃ pairs1 pr, pairs = pairs1 ++ [pr] ∧
        pairs1.map Prod.fst = xs ∧ pr.1 = y := by
  intro pairs
  induction pairs with
  | nil =>
    intro xs y h
    rw [List.map_nil] at h
    exact absurd h.symm (by simp)
  | cons pr0 rest ih =>
    intro xs y h
    cases xs with
    | nil =>
      simp only [List.map_cons, List.nil_append, List.cons.injEq] at h
      obtain ⟨h1, h2⟩ := h
      have : rest = [] := by
        cases rest with
        | nil => rfl
        | cons a l => simp at h2
      subst this
      exact ⟨[], pr0, rfl, rfl, h1⟩
    | cons x xs' =>
      simp only [List.map_cons, List.cons_append, List.cons.injEq] at h
      obtain ⟨h1, h2⟩ := h
      obtain ⟨p1, pr, he, hmp, hy⟩ := ih xs' y h2
      exact ⟨pr0 :: p1, pr, by rw [he]; rfl, by simp [hmp, h1], hy⟩

/-- The alarm parse loop over safe rendered lines collects them verbatim
and stops at the `END` line, at any line numbering. -/
theorem alarmParseLoop_render :
    ∀ (ps : List ContentLine), (∀ p ∈ ps, SafeProp p) →
      ∀ (pairs : List (Str × Nat)),
        pairs.map Prod.fst = ps.map renderContentLine →
      ∀ (m : Nat) (rest : List (Str × Nat)),
      alarmParseLoop (pairs ++ (str "END:VALARM", m) :: rest) =
        .ok (ps, rest) := by
  intro ps
  induction ps with
  | nil =>
    intro _ pairs hmap m rest
    have hnil : pairs = [] := by
      cases pairs with
      | nil => rfl
      | cons a l => simp at hmap
    subst hnil
    rfl
  | cons p ps' ih =>
    intro hsafe pairs hmap m rest
    cases pairs with
    | nil => simp at hmap
    | cons pr pairs' =>
      obtain ⟨l0, n0⟩ := pr
      simp only [List.map_cons, List.cons.injEq] at hmap
      obtain ⟨h1, h2⟩ := hmap
      have h1' : l0 = renderContentLine p := h1
      subst h1'
      simp only [List.cons_append]
      conv_lhs => rw [alarmParseLoop]
      rw [parseContentLine_render n0 p (hsafe p (List.mem_cons_self p ps'))]
      dsimp only
      obtain ⟨-, -, hnb, hnd, -, -, -⟩ :=
        hsafe p (List.mem_cons_self p ps')
      rw [if_neg hnd, if_neg hnb]
      rw [ih (fun q hq => hsafe q (List.mem_cons_of_mem p hq)) pairs' h2
        m rest]

theorem alarmCheckHeader_begin (k : Nat) (restPairs : List (Str × Nat)) :
    alarmCheckHeader ((str "BEGIN:VALARM", k) :: restPairs) =
      some (.ok restPairs) := rfl

/-- C1, counterexample: the alarm holding the single property
`X;P=x;y:v` — whose parameter value contains a `';'` — is a verified
component (`IcalAlarmBuilder::build` accepts any property list), and its
generated text escapes the `';'` as `\;`; but the tokenizer knows no
escapes, splits at the `'\'`, takes `y:v` for a parameter, and fails with
a missing-`'='` error, so parsing `generate(C)` does not succeed. -/
theorem quoting_breaks_generate_parse_roundtrip :
    buildAlarm ⟨[⟨str "X", [(str "P", [str "x;y"])], some (str "v")⟩]⟩ =
      .ok ⟨[⟨str "X", [(str "P", [str "x;y"])], some (str "v")⟩]⟩ ∧
    parseAlarmText (IcalAlarm.generate
      ⟨[⟨str "X", [(str "P", [str "x;y"])], some (str "v")⟩]⟩) =
      some (.error (.propertyError (.missingDelimiter 2 '='))) := by
  constructor
  · rfl
  · decide

/-- C1 (amended): for a verified `VALARM` component all of whose
properties are safe — names and parameter keys non-empty, free of
delimiter/escape/line-break/whitespace-marker characters, names not
`BEGIN`/`END`, keys fixed by uppercasing, parameter value lists non-empty
with non-empty escape-free values, values absent or non-empty without
line breaks — and whose rendered logical lines keep the line break off a
fold-chunk boundary, parsing the generated text succeeds and returns the
component itself, so its `generate()` output is byte-identical to the
original's. -/
theorem generate_parse_roundtrip (a : IcalAlarm)
    (hsafe : ∀ p ∈ a.properties, SafeProp p)
    (hfold : ∀ p ∈ a.properties, (renderContentLine p).length % 74 ≠ 0) :
    parseAlarmText a.generate = some (.ok a) := by
  have hgood : ∀ l ∈ str "BEGIN:VALARM" ::
      (a.properties.map renderContentLine ++ [str "END:VALARM"]),
      GoodLine l := by
    intro l hl
    rcases List.mem_cons.mp hl with h | h
    · subst h
      decide
    · rcases List.mem_append.mp h with h | h
      · rcases List.mem_map.mp h with ⟨p, hp, hpe⟩
        subst hpe
        exact safe_render_good p (hsafe p hp) (hfold p hp)
      · simp only [List.mem_singleton] at h
        subst h
        decide
  have htext : IcalAlarm.generate a =
      ((str "BEGIN:VALARM" ::
        (a.properties.map renderContentLine ++ [str "END:VALARM"])).map
          (fun raw => splitLine (raw ++ crlf))).flatten := by
    unfold IcalAlarm.generate
    simp only [List.map_cons, List.map_append, List.map_nil,
      List.flatten_cons, List.flatten_append, List.flatten_nil]
    have hmid : (a.properties.map renderContentLine).map
        (fun raw => splitLine (raw ++ crlf)) =
        a.properties.map ContentLine.generate := by
      rw [List.map_map]
      exact List.map_congr_left (fun p _ => (generate_eq_splitLine p).symm)
    rw [hmid]
    rw [show splitLine (str "BEGIN:VALARM" ++ crlf) =
      str "BEGIN:VALARM\r\n" from rfl]
    rw [show splitLine (str "END:VALARM" ++ crlf) =
      str "END:VALARM\r\n" from rfl]
    simp
  unfold parseAlarmText lineReader
  rw [htext]
  rw [splitLine_flatten _ (fun raw hraw =>
    ⟨(hgood raw hraw).2.2.2.1, (hgood raw hraw).2.2.2.2.1,
     (hgood raw hraw).2.2.2.2.2⟩)]
  rw [bytesLines_pieces _ (by
    intro piece hpiece
    rcases List.mem_flatten.mp hpiece with ⟨chunkl, hcl, hpc⟩
    rcases List.mem_map.mp hcl with ⟨raw, hraw, hre⟩
    subst hre
    exact foldedPieces_lf_free raw (hgood raw hraw).2.2.2.2.1 piece hpc)]
  have hlr := lineReaderGo_pieces (str "BEGIN:VALARM" ::
      (a.properties.map renderContentLine ++ [str "END:VALARM"])) hgood 0
  revert hlr
  generalize lineReaderGo 0 (((str "BEGIN:VALARM" ::
      (a.properties.map renderContentLine ++ [str "END:VALARM"])).map
        foldedPieces).flatten) = pairs
  intro hlr
  cases pairs with
  | nil => simp at hlr
  | cons prB pairs2 =>
    obtain ⟨lB, kB⟩ := prB
    simp only [List.map_cons, List.cons.injEq] at hlr
    obtain ⟨hB, h2⟩ := hlr
    have hB' : lB = str "BEGIN:VALARM" := hB
    subst hB'
    obtain ⟨pairsP, prE, hsplit, hmapP, hE⟩ :=
      map_fst_append_single pairs2 (a.properties.map renderContentLine)
        (str "END:VALARM") h2
    obtain ⟨lE, mE⟩ := prE
    have hE' : lE = str "END:VALARM" := hE
    subst hE'
    subst hsplit
    unfold alarmParserNext
    rw [alarmCheckHeader_begin]
    dsimp only
    rw [alarmParseLoop_render a.properties hsafe pairsP hmapP mE []]
    rfl

theorem generate_parse_roundtrip_witness :
    ((∀ p ∈ (⟨[⟨str "SUMMARY", [(str "X", [str "1"])],
        some (str "Hello")⟩]⟩ : IcalAlarm).properties, SafeProp p) ∧
     (∀ p ∈ (⟨[⟨str "SUMMARY", [(str "X", [str "1"])],
        some (str "Hello")⟩]⟩ : IcalAlarm).properties,
        (renderContentLine p).length % 74 ≠ 0)) ∧
    parseAlarmText (IcalAlarm.generate
      ⟨[⟨str "SUMMARY", [(str "X", [str "1"])], some (str "Hello")⟩]⟩) =
      some (.ok ⟨[⟨str "SUMMARY", [(str "X", [str "1"])],
        some (str "Hello")⟩]⟩) :=
  ⟨⟨by decide, by decide⟩,
   generate_parse_roundtrip
     ⟨[⟨str "SUMMARY", [(str "X", [str "1"])], some (str "Hello")⟩]⟩
     (by decide) (by decide)⟩

end IcalRs
